import Mathlib

/-!
# spell-checker: the trie word store, the tokenising spell check and the task runner

A shallow embedding of `spell-checker_data.c`, `spell-checker_runner.c` and
`spell-checker.c`.

Conventions of the embedding.

* A byte is a `Fin 256`: the value of a C `char` read as `unsigned char`.
* A C string (`const char *`) is the list of its bytes before the terminating
  NUL; a NULL pointer is `none`.
* `calloc` and `malloc` always succeed.
* Dereferencing a NULL or freed pointer is undefined behaviour; a function that
  would do so returns `none`.
* The calls made to a `SpellCheckerCallback` are recorded, in order, in a list.
-/

namespace SpellChecker

/-- One byte of a C string, as an `unsigned char`. -/
abbrev Byte := Fin 256

/-- The bytes of an ASCII string literal. -/
def str (s : String) : List Byte :=
  s.toList.map (fun c => Fin.ofNat c.toNat)

/-! ## spell-checker_data.c -/

/-- The `struct _SpellCheckerData`: a character and a pointer `child` that is
either NULL (`leaf`) or the address of an array of `MAX_CHARS_PER_NODE = 256`
structs (`node`). -/
inductive SpellCheckerData where
  | leaf (chr : Byte) : SpellCheckerData
  | node (chr : Byte) (child : Fin 256 → SpellCheckerData) : SpellCheckerData

namespace SpellCheckerData

/-- The field `chr`. -/
def chr : SpellCheckerData → Byte
  | leaf c => c
  | node c _ => c

/-- Whether the field `child` is non-NULL. -/
def hasChild : SpellCheckerData → Bool
  | leaf _ => false
  | node _ _ => true

end SpellCheckerData

open SpellCheckerData

/-- The result of `calloc(MAX_CHARS_PER_NODE, sizeof(struct _SpellCheckerData))`:
256 structs with `chr = 0` and `child = NULL`. -/
def callocChildren : Fin 256 → SpellCheckerData :=
  fun _ => leaf 0

/-- The function `scdInitNode(chr, node)`: sets the character and points `child` at a
freshly zeroed array, whatever the node held before. Returns 0. -/
def scdInitNode (chr : Byte) (_node : SpellCheckerData) : Int × SpellCheckerData :=
  (0, node chr callocChildren)

/-- The function `scdCreateNode()`: a fresh node initialised with character 0. -/
def scdCreateNode : Option SpellCheckerData :=
  let r := scdInitNode 0 (leaf 0)
  if r.1 = -1 then none else some r.2

/-- The function `scdInit()`. -/
def scdInit : Option SpellCheckerData :=
  scdCreateNode

/-- The function `scdNormalizeChar(c)`: `'A'..'Z'` are moved to `'a'..'z'`, every other
byte is returned as it is. -/
def scdNormalizeChar (c : Byte) : Byte :=
  if 0x41 ≤ c ∧ 0x5A ≥ c then c + 0x20 else c

/-- The function `scdIsValid(word)`: 1 when every byte is a letter, a digit or at least
0x80, and 0 at the first byte that is not. -/
def scdIsValid : List Byte → Int
  | [] => 1
  | c :: rest =>
    if ¬ ((0x61 ≤ c ∧ 0x7A ≥ c) ∨ (0x41 ≤ c ∧ 0x5A ≥ c) ∨ (0x30 ≤ c ∧ 0x39 ≥ c) ∨
          0x80 ≤ scdNormalizeChar c) then 0
    else scdIsValid rest

/-- The second loop of `scdAddWord`, entered at `node` with the bytes `word[i..n)`
still to place: each byte initialises the slot at its index and moves into it.
`none` when `node->child` is NULL. -/
def scdAddWordCreate : SpellCheckerData → List Byte → Option SpellCheckerData
  | nd, [] => some nd
  | leaf _, _ :: _ => none
  | node chr child, c :: rest =>
    let k := scdNormalizeChar c
    let r := scdInitNode k (child k)
    if r.1 = -1 then none
    else
      match scdAddWordCreate r.2 rest with
      | none => none
      | some sub => some (node chr (Function.update child k sub))

/-- The first loop of `scdAddWord` followed by the second, entered at `node` with the
bytes `word[i..n)`: while the slot of the next byte has a non-zero `chr` move into
it; at the first slot with `chr = 0` go on with the second loop.
`none` when `node->child` is NULL. -/
def scdAddWordFind : SpellCheckerData → List Byte → Option SpellCheckerData
  | nd, [] => some nd
  | leaf _, _ :: _ => none
  | node chr child, c :: rest =>
    let k := scdNormalizeChar c
    if 0 ≠ (child k).chr then
      match scdAddWordFind (child k) rest with
      | none => none
      | some sub => some (node chr (Function.update child k sub))
    else scdAddWordCreate (node chr child) (c :: rest)

/-- The function `scdAddWord(data, word)`. The result is the returned `int` and the store
`data` points to after the call; `none` is undefined behaviour. -/
def scdAddWord (data : Option SpellCheckerData) (word : Option (List Byte)) :
    Option (Int × Option SpellCheckerData) :=
  match data, word with
  | none, _ => some (-1, data)
  | some _, none => some (-1, data)
  | some (leaf _), some _ => some (-1, data)
  | some (node chr child), some w =>
    if scdIsValid w = 0 then some (-1, data)
    else
      match scdAddWordFind (node chr child) w with
      | none => none
      | some s => some (0, some s)

/-- The loop of `scdHasWord`, entered at `node` with the bytes `word[i..n)`.
`none` when `node->child` is NULL. -/
def scdHasWordLoop : SpellCheckerData → List Byte → Option Int
  | _, [] => some 1
  | leaf _, _ :: _ => none
  | node _ child, c :: rest =>
    if 0 = (child (scdNormalizeChar c)).chr then some 0
    else scdHasWordLoop (child (scdNormalizeChar c)) rest

/-- The function `scdHasWord(data, word)`; `none` is undefined behaviour. -/
def scdHasWord (data : Option SpellCheckerData) (word : Option (List Byte)) : Option Int :=
  match data, word with
  | none, _ => some (-1)
  | some _, none => some (-1)
  | some (leaf _), some _ => some (-1)
  | some (node chr child), some w => scdHasWordLoop (node chr child) w

/-! ## Well-formed and reachable stores -/

/-- Every struct whose `child` pointer is NULL has `chr = 0`: the walks of
`scdAddWord` and `scdHasWord` only move into structs with a non-zero `chr`, so on
such a store they never dereference NULL. -/
def Sound : SpellCheckerData → Prop
  | leaf c => c = 0
  | node _ child => ∀ k, Sound (child k)

/-- The stores reachable from `scdInit` by calls of `scdAddWord`, with any argument
(a NULL word and rejected words included). -/
inductive Reachable : SpellCheckerData → Prop
  | init {s : SpellCheckerData} : scdInit = some s → Reachable s
  | add {s s' : SpellCheckerData} {word : Option (List Byte)} {ret : Int} :
      Reachable s → scdAddWord (some s) word = some (ret, some s') → Reachable s'

/-- The allowed bytes of a word: `A-Z`, `a-z`, `0-9` and `0x80-0xFF`. -/
def Allowed (b : Byte) : Prop :=
  (0x41 ≤ b ∧ b ≤ 0x5A) ∨ (0x61 ≤ b ∧ b ≤ 0x7A) ∨ (0x30 ≤ b ∧ b ≤ 0x39) ∨ 0x80 ≤ b

instance (b : Byte) : Decidable (Allowed b) :=
  inferInstanceAs (Decidable
    ((0x41 ≤ b ∧ b ≤ 0x5A) ∨ (0x61 ≤ b ∧ b ≤ 0x7A) ∨ (0x30 ≤ b ∧ b ≤ 0x39) ∨ 0x80 ≤ b))


/-! ## spell-checker_runner.c -/

/-- Why a modelled call yields no result. -/
inductive Stuck where
  /-- A NULL or freed pointer is dereferenced. -/
  | undefinedBehaviour : Stuck
  /-- The iteration bound of the model was used up. -/
  | outOfFuel : Stuck
  /-- The worker is in `pthread_cond_wait`: the queue is empty. -/
  | waiting : Stuck
  deriving DecidableEq

deriving instance DecidableEq for Except

/-- The `enum ScrMsgType`. -/
inductive ScrMsgType where
  | SCR_MSG_ADD : ScrMsgType
  | SCR_MSG_SPELL_CHECK : ScrMsgType
  | SCR_MSG_FINALIZE : ScrMsgType
  deriving DecidableEq

/-- A `SpellCheckerCallback` function pointer, by identity. -/
abbrev SpellCheckerCallback := Nat

/-- The `struct ScrSpellCheckArg`. -/
structure ScrSpellCheckArg where
  text : List Byte
  callback : SpellCheckerCallback
  deriving DecidableEq

/-- What the `void *arg` of a message points to: nothing (NULL), a copied word
(`char *`) or a `ScrSpellCheckArg`. -/
inductive ScrArg where
  | null : ScrArg
  | word (w : List Byte) : ScrArg
  | spellCheck (a : ScrSpellCheckArg) : ScrArg
  deriving DecidableEq

/-- The `struct ScrMsg`, a cell of the linked list; `next` is an address. -/
structure ScrMsg where
  type : ScrMsgType
  arg : ScrArg
  next : Option Nat
  deriving DecidableEq

/-- The `struct _SpellCheckerRunner` with the memory its queue lives in: `heap` maps
an address to the `ScrMsg` allocated there (`none` when free), `brk` is the
address the next `malloc` returns. `calls` records the callback invocations made
so far, each with the callback and its argument. -/
structure SpellCheckerRunner where
  heap : Nat → Option ScrMsg
  brk : Nat
  csrMsgHead : Option Nat
  csrMsgTail : Option Nat
  data : Option SpellCheckerData
  isRunning : Int
  calls : List (SpellCheckerCallback × List Byte)

/-- The function `createScrMsg(type, arg)`: the address of the new message and the
memory after the allocation. -/
def createScrMsg (runner : SpellCheckerRunner) (type : ScrMsgType) (arg : ScrArg) :
    Option Nat × SpellCheckerRunner :=
  (some runner.brk,
   { runner with
     heap := Function.update runner.heap runner.brk (some ⟨type, arg, none⟩)
     brk := runner.brk + 1 })

/-- The bytes of the delimiter string of `scrDoSpellCheck`: space, comma, full stop,
hyphen, slash, apostrophe, semicolon, colon, the three pairs of brackets, newline
and the double quote. -/
def delimiters : List Byte :=
  [0x20, 0x2C, 0x2E, 0x2D, 0x2F, 0x27, 0x3B, 0x3A, 0x28, 0x29, 0x5B, 0x5D, 0x7B, 0x7D,
   0x0A, 0x22]

/-- The C library function `strtok`, on the string it scans (`s`, the text on the first
call and the saved position on the later ones): the leading delimiters are
skipped; at the end of the string the result is NULL; otherwise the token runs
up to the next delimiter, which is overwritten with NUL, and the saved position
is the byte after it (or the end of the string). -/
def strtok (delim : List Byte) (s : List Byte) : Option (List Byte) × List Byte :=
  match s.dropWhile (fun b => decide (b ∈ delim)) with
  | [] => (none, [])
  | b :: bs =>
    (some ((b :: bs).takeWhile (fun x => decide (x ∉ delim))),
     ((b :: bs).dropWhile (fun x => decide (x ∉ delim))).tail)

/-- The `while (word)` loop of `scrDoSpellCheck`: `word` is the current token (NULL
ends the loop), `saved` the position `strtok` resumes at, `calls` the arguments
the callback has been called with so far. -/
def scrDoSpellCheckLoop (data : Option SpellCheckerData) :
    Nat → Option (List Byte) → List Byte → List (List Byte) →
      Except Stuck (List (List Byte))
  | _, none, _, calls => .ok calls
  | 0, some _, _, _ => .error .outOfFuel
  | fuel + 1, some word, saved, calls =>
    match scdHasWord data (some word) with
    | none => .error .undefinedBehaviour
    | some r =>
      let next := strtok delimiters saved
      scrDoSpellCheckLoop data fuel next.1 next.2 (if r = 0 then calls ++ [word] else calls)

/-- The function `scrDoSpellCheck(data, arg)`: the returned `int` and the arguments of the
successive calls of `msg->callback`. Every token has at least one byte, so the
loop runs at most `text.length` times. -/
def scrDoSpellCheck (data : Option SpellCheckerData) (arg : ScrSpellCheckArg) :
    Except Stuck (Int × List (List Byte)) :=
  let first := strtok delimiters arg.text
  match scrDoSpellCheckLoop data arg.text.length first.1 first.2 [] with
  | .error e => .error e
  | .ok calls => .ok (0, calls)

/-- The values the variable `word` takes in the `while (word)` loop of
`scrDoSpellCheck`, in order: the successive non-NULL results of `strtok`. -/
def scrDoSpellCheckWords : Nat → Option (List Byte) → List Byte → List (List Byte)
  | _, none, _ => []
  | 0, some _, _ => []
  | fuel + 1, some word, saved =>
    word :: scrDoSpellCheckWords fuel (strtok delimiters saved).1 (strtok delimiters saved).2

/-- The tokens `scrDoSpellCheck` looks up for a text, with the iteration bound of
`scrDoSpellCheck`. -/
def scrTokens (text : List Byte) : List (List Byte) :=
  scrDoSpellCheckWords text.length (strtok delimiters text).1 (strtok delimiters text).2

/-- The `switch` of `thread_runner` on the message at the head of the queue. The
`default` branch is not reachable for the three values of the enumeration, so
`handled` stays 1. -/
def thread_runner_switch (runner : SpellCheckerRunner) (msg : ScrMsg) :
    Except Stuck SpellCheckerRunner :=
  match msg.type, msg.arg with
  | .SCR_MSG_ADD, .spellCheck _ => .error .undefinedBehaviour
  | .SCR_MSG_ADD, .null =>
    match scdAddWord runner.data none with
    | none => .error .undefinedBehaviour
    | some r => .ok { runner with data := r.2 }
  | .SCR_MSG_ADD, .word w =>
    match scdAddWord runner.data (some w) with
    | none => .error .undefinedBehaviour
    | some r => .ok { runner with data := r.2 }
  | .SCR_MSG_SPELL_CHECK, .spellCheck a =>
    match scrDoSpellCheck runner.data a with
    | .error e => .error e
    | .ok r => .ok { runner with calls := runner.calls ++ r.2.map (fun w => (a.callback, w)) }
  | .SCR_MSG_SPELL_CHECK, _ => .error .undefinedBehaviour
  | .SCR_MSG_FINALIZE, _ => .ok { runner with isRunning := 0 }

/-- One pass through the body of the `while (handled && runner->isRunning)` loop of
`thread_runner`, under the mutex: wait for a message, handle it, unlink and free
it. The result is the new value of `handled` and the runner. -/
def thread_runner_body (runner : SpellCheckerRunner) :
    Except Stuck (Int × SpellCheckerRunner) :=
  match runner.csrMsgHead with
  | none => .error .waiting
  | some head =>
    match runner.heap head with
    | none => .error .undefinedBehaviour
    | some msg =>
      match thread_runner_switch runner msg with
      | .error e => .error e
      | .ok r =>
        .ok (1, { r with
                  heap := Function.update r.heap head none
                  csrMsgHead := msg.next })

/-- The `while (handled && runner->isRunning)` loop of `thread_runner`: it runs while
`handled` and `isRunning` are both non-zero. -/
def thread_runner_loop : Nat → Int → SpellCheckerRunner → Except Stuck SpellCheckerRunner
  | fuel, handled, runner =>
    if handled ≠ 0 ∧ runner.isRunning ≠ 0 then
      match fuel with
      | 0 => .error .outOfFuel
      | fuel + 1 =>
        match thread_runner_body runner with
        | .error e => .error e
        | .ok r => thread_runner_loop fuel r.1 r.2
    else .ok runner

/-- The function `thread_runner(arg)`: the loop is entered with `handled = 1`; the result
is the runner at the moment the thread returns. -/
def thread_runner (fuel : Nat) (runner : SpellCheckerRunner) :
    Except Stuck SpellCheckerRunner :=
  thread_runner_loop fuel 1 runner

/-- The function `csrPushMsg(runner, type, arg)`, under the mutex. -/
def csrPushMsg (runner : SpellCheckerRunner) (type : ScrMsgType) (arg : ScrArg) :
    Except Stuck SpellCheckerRunner :=
  match runner.csrMsgHead with
  | none =>
    let r := createScrMsg runner type arg
    .ok { r.2 with csrMsgHead := r.1, csrMsgTail := r.1 }
  | some _ =>
    match runner.csrMsgTail with
    | none => .error .undefinedBehaviour
    | some tail =>
      match runner.heap tail with
      | none => .error .undefinedBehaviour
      | some tailMsg =>
        if tailMsg.next = none then
          let r := createScrMsg runner type arg
          .ok { r.2 with
                heap := Function.update r.2.heap tail (some { tailMsg with next := r.1 })
                csrMsgTail := r.1 }
        else .ok runner

/-- The function `scrInit()`: the data model is initialised, the runner is running and
its queue is empty. -/
def scrInit : Option SpellCheckerRunner :=
  match scdInit with
  | none => none
  | some data =>
    some { heap := fun _ => none, brk := 0, csrMsgHead := none, csrMsgTail := none,
           data := some data, isRunning := 1, calls := [] }

/-- The function `scrAddWord(runner, word)`: the returned `int` and the runner after the
call. -/
def scrAddWord (runner : Option SpellCheckerRunner) (word : Option (List Byte)) :
    Except Stuck (Int × Option SpellCheckerRunner) :=
  match runner, word with
  | none, _ => .ok (-1, runner)
  | some _, none => .ok (-1, runner)
  | some r, some w =>
    if r.isRunning = 0 then .ok (0, runner)
    else
      match csrPushMsg r .SCR_MSG_ADD (.word w) with
      | .error e => .error e
      | .ok r' => .ok (0, some r')

/-- The function `scrRunSpellCheck(runner, text, callback)`: the returned `int` and the
runner after the call. -/
def scrRunSpellCheck (runner : Option SpellCheckerRunner) (text : Option (List Byte))
    (callback : Option SpellCheckerCallback) :
    Except Stuck (Int × Option SpellCheckerRunner) :=
  match runner, text, callback with
  | none, _, _ => .ok (-1, runner)
  | some _, none, _ => .ok (-1, runner)
  | some _, some _, none => .ok (-1, runner)
  | some r, some t, some cb =>
    if r.isRunning = 0 then .ok (0, runner)
    else
      match csrPushMsg r .SCR_MSG_SPELL_CHECK (.spellCheck ⟨t, cb⟩) with
      | .error e => .error e
      | .ok r' => .ok (0, some r')

/-- The function `scrFinalize(runner)`: the returned `int` and the runner after the call.
A running runner gets the shutdown message; `pthread_join` returns when the
worker thread, going on from the state the push leaves, has left its loop; then
`scdFinalize` and `free` release the store and the runner, so that the handle
points to nothing any more. -/
def scrFinalize (fuel : Nat) (runner : Option SpellCheckerRunner) :
    Except Stuck (Int × Option SpellCheckerRunner) :=
  match runner with
  | none => .ok (-1, runner)
  | some r =>
    if r.isRunning = 0 then .ok (0, runner)
    else
      match csrPushMsg r .SCR_MSG_FINALIZE .null with
      | .error e => .error e
      | .ok r1 =>
        match thread_runner fuel r1 with
        | .error e => .error e
        | .ok _ => .ok (0, none)

/-! ## spell-checker.c -/

/-- The `struct _SpellCheckerDictionary`; `runner` is a pointer. -/
structure SpellCheckerDictionary where
  runner : Option SpellCheckerRunner

/-- The function `createSpellCheckerDictionary()`. -/
def createSpellCheckerDictionary : Option SpellCheckerDictionary :=
  match scrInit with
  | none => none
  | some r => some ⟨some r⟩

/-- The function `spellCheckerAddWord(dict, word)`: the returned `int` and the dictionary
after the call. -/
def spellCheckerAddWord (dict : Option SpellCheckerDictionary) (word : Option (List Byte)) :
    Except Stuck (Int × Option SpellCheckerDictionary) :=
  match dict, word with
  | none, _ => .ok (-1, dict)
  | some _, none => .ok (-1, dict)
  | some d, some w =>
    match scrAddWord d.runner (some w) with
    | .error e => .error e
    | .ok r => .ok (r.1, some ⟨r.2⟩)

/-- The function `spellCheck(dict, text, callback)`; `dict` is dereferenced unchecked. -/
def spellCheck (dict : Option SpellCheckerDictionary) (text : Option (List Byte))
    (callback : Option SpellCheckerCallback) : Except Stuck (Option SpellCheckerDictionary) :=
  match dict with
  | none => .error .undefinedBehaviour
  | some d =>
    match scrRunSpellCheck d.runner text callback with
    | .error e => .error e
    | .ok r => .ok (some ⟨r.2⟩)

/-! ## Specification-side notions -/

/-- The tokens of a text for a delimiter set, stated without `strtok`: the text is cut
at every delimiter byte and the empty pieces are dropped, which leaves the
maximal runs of non-delimiter bytes in their order. -/
def tokens (delim : List Byte) (text : List Byte) : List (List Byte) :=
  (text.splitOnP (fun b => decide (b ∈ delim))).filter (fun t => !t.isEmpty)

/-- Two bytes that are equal or are the upper-case and lower-case form of one ASCII
letter. -/
def CaseEq (b b' : Byte) : Prop :=
  b = b' ∨ (0x41 ≤ b ∧ b ≤ 0x5A ∧ b' = b + 0x20) ∨ (0x41 ≤ b' ∧ b' ≤ 0x5A ∧ b = b' + 0x20)

instance (b b' : Byte) : Decidable (CaseEq b b') :=
  inferInstanceAs (Decidable
    (b = b' ∨ (0x41 ≤ b ∧ b ≤ 0x5A ∧ b' = b + 0x20) ∨ (0x41 ≤ b' ∧ b' ≤ 0x5A ∧ b = b' + 0x20)))

/-- Two words that differ only in the case of ASCII letters: the same length, and
byte by byte the same up to case. -/
def SameUpToCase : List Byte → List Byte → Prop
  | [], [] => True
  | b :: w, b' :: w' => CaseEq b b' ∧ SameUpToCase w w'
  | [], _ :: _ => False
  | _ :: _, [] => False

instance decidableSameUpToCase : (w w' : List Byte) → Decidable (SameUpToCase w w')
  | [], [] => isTrue trivial
  | b :: w, b' :: w' =>
    have := decidableSameUpToCase w w'
    inferInstanceAs (Decidable (CaseEq b b' ∧ SameUpToCase w w'))
  | [], _ :: _ => isFalse (fun h => h)
  | _ :: _, [] => isFalse (fun h => h)

/-- The store after `scdAddWord` has been called with each word in turn. -/
def addWords : Option SpellCheckerData → List (List Byte) → Option SpellCheckerData
  | data, [] => data
  | data, w :: ws =>
    match scdAddWord data (some w) with
    | none => none
    | some r => addWords r.2 ws

/-- The store built from `scdInit` by adding the given words (used for concrete
instances). -/
def dictionary (ws : List (List Byte)) : SpellCheckerData :=
  (addWords scdInit ws).getD (leaf 0)

/-- The runner `scrInit` returns (used for concrete instances). -/
def initialRunner : SpellCheckerRunner :=
  scrInit.getD ⟨fun _ => none, 0, none, none, none, 0, []⟩

/-- The runner after `csrPushMsg` has been called with each message in turn (used
for concrete instances). -/
def enqueue : SpellCheckerRunner → List (ScrMsgType × ScrArg) → SpellCheckerRunner
  | runner, [] => runner
  | runner, m :: ms =>
    match csrPushMsg runner m.1 m.2 with
    | .error _ => runner
    | .ok r => enqueue r ms

/-- The callback invocations recorded when the worker has run to the end of its
loop, `none` when it does not get there. -/
def callsAfter (fuel : Nat) (runner : SpellCheckerRunner) :
    Option (List (SpellCheckerCallback × List Byte)) :=
  match thread_runner fuel runner with
  | .ok r => some r.calls
  | .error _ => none

/-- A normalised allowed byte: `a-z`, `0-9` or `0x80-0xFF`. -/
def NormAllowed (b : Byte) : Prop :=
  (0x61 ≤ b ∧ b ≤ 0x7A) ∨ (0x30 ≤ b ∧ b ≤ 0x39) ∨ 0x80 ≤ b

instance (b : Byte) : Decidable (NormAllowed b) :=
  inferInstanceAs (Decidable ((0x61 ≤ b ∧ b ≤ 0x7A) ∨ (0x30 ≤ b ∧ b ≤ 0x39) ∨ 0x80 ≤ b))

/-- What holds of one slot, at index `b` of a child table: a non-zero `chr` equals the
index, is a normalised allowed byte and comes with a child table; a slot with
`chr = 0` has no child table. -/
def SlotOk (b : Fin 256) (slot : SpellCheckerData) : Prop :=
  (slot.chr ≠ 0 → slot.chr = b ∧ NormAllowed b ∧ slot.hasChild = true) ∧
  (slot.chr = 0 → slot.hasChild = false)

/-- The struct has a child table, every slot of it is `SlotOk`, and the same holds of
every slot with a non-zero `chr`, recursively. -/
def TrieInv : SpellCheckerData → Prop
  | leaf _ => False
  | node _ child => ∀ b : Fin 256, SlotOk b (child b) ∧ ((child b).chr ≠ 0 → TrieInv (child b))

/-- The struct found from `nd` by indexing the child tables with the bytes of `path` in
turn; `none` when a struct on the way has no child table. -/
def slotAt : SpellCheckerData → List (Fin 256) → Option SpellCheckerData
  | nd, [] => some nd
  | leaf _, _ :: _ => none
  | node _ child, b :: bs => slotAt (child b) bs

/-- The cells of a linked list: `Chain heap p cs` says that the pointer `p` leads
through the allocated cells `cs`, each given with its address, every `next`
pointing to the following cell and the last `next` being NULL. -/
def Chain (heap : Nat → Option ScrMsg) : Option Nat → List (Nat × ScrMsg) → Prop
  | p, [] => p = none
  | p, c :: cs => p = some c.1 ∧ heap c.1 = some c.2 ∧ Chain heap c.2.next cs

/-- The queue of the runner is a well-formed linked list holding the messages `q`, the
oldest first: `csrMsgHead` leads through cells at distinct allocated addresses
that carry the messages of `q`, and when the list is not empty `csrMsgTail`
points to its last cell. -/
def QueueInv (r : SpellCheckerRunner) (q : List (ScrMsgType × ScrArg)) : Prop :=
  ∃ cs : List (Nat × ScrMsg),
    Chain r.heap r.csrMsgHead cs ∧ (cs.map Prod.fst).Nodup ∧ (∀ c ∈ cs, c.1 < r.brk) ∧
    (∀ c, cs.getLast? = some c → r.csrMsgTail = some c.1) ∧
    q = cs.map (fun c => (c.2.type, c.2.arg))

/-- The runner states reachable from `scrInit` by any interleaving of `csrPushMsg` calls
and passes of the worker loop (each under the mutex, so one at a time), with
the messages pushed so far and the messages the worker has handled so far, both
in order. The worker makes a pass only while `isRunning` is non-zero. -/
inductive RunnerReachable :
    SpellCheckerRunner → List (ScrMsgType × ScrArg) → List (ScrMsgType × ScrArg) → Prop
  | init {r : SpellCheckerRunner} : scrInit = some r → RunnerReachable r [] []
  | push {r r' : SpellCheckerRunner} {pushed executed : List (ScrMsgType × ScrArg)}
      {type : ScrMsgType} {arg : ScrArg} :
      RunnerReachable r pushed executed → csrPushMsg r type arg = .ok r' →
      RunnerReachable r' (pushed ++ [(type, arg)]) executed
  | work {r r' : SpellCheckerRunner} {pushed executed : List (ScrMsgType × ScrArg)}
      {head : Nat} {msg : ScrMsg} {handled : Int} :
      RunnerReachable r pushed executed → r.isRunning ≠ 0 →
      r.csrMsgHead = some head → r.heap head = some msg →
      thread_runner_body r = .ok (handled, r') →
      RunnerReachable r' pushed (executed ++ [(msg.type, msg.arg)])

/-- The runner after one pass of the worker loop; the runner itself when the pass has
no result (used for concrete instances). -/
def workerPass (r : SpellCheckerRunner) : SpellCheckerRunner :=
  match thread_runner_body r with
  | .ok x => x.2
  | .error _ => r

/-- The struct in which the walk of `scdAddWord` goes on after the byte with index `k`:
the slot itself when its `chr` is non-zero (first loop), and the slot as
`scdInitNode` leaves it, with character `k` and a zeroed child table, when its
`chr` is 0 (second loop). -/
def openSlot (k : Fin 256) (slot : SpellCheckerData) : SpellCheckerData :=
  if 0 ≠ slot.chr then slot else node k callocChildren

/-! ## Lemmas on the trie -/

set_option maxRecDepth 100000 in
theorem scdNormalizeChar_ne_zero : ∀ c : Byte, Allowed c → scdNormalizeChar c ≠ 0 := by
  decide

set_option maxRecDepth 100000 in
theorem scdIsValid_head : ∀ c : Byte,
    (¬ ((0x61 ≤ c ∧ 0x7A ≥ c) ∨ (0x41 ≤ c ∧ 0x5A ≥ c) ∨ (0x30 ≤ c ∧ 0x39 ≥ c) ∨
          0x80 ≤ scdNormalizeChar c)) ↔ ¬ Allowed c := by
  decide

theorem scdIsValid_eq_one_iff (w : List Byte) : scdIsValid w = 1 ↔ ∀ b ∈ w, Allowed b := by
  induction w with
  | nil => simp [scdIsValid]
  | cons c rest ih =>
    by_cases hc : Allowed c
    · have h := (not_congr (scdIsValid_head c)).mpr (not_not.mpr hc)
      simp only [scdIsValid, if_neg h, ih, List.forall_mem_cons, hc, true_and]
    · have h := (scdIsValid_head c).mpr hc
      rw [scdIsValid, if_pos h]
      simp [hc]

theorem scdIsValid_eq_zero_iff (w : List Byte) : scdIsValid w = 0 ↔ ∃ b ∈ w, ¬ Allowed b := by
  induction w with
  | nil => simp [scdIsValid]
  | cons c rest ih =>
    by_cases hc : Allowed c
    · have h := (not_congr (scdIsValid_head c)).mpr (not_not.mpr hc)
      simp only [scdIsValid, if_neg h, ih, List.exists_mem_cons_iff, hc, not_true_eq_false,
        false_or]
    · have h := (scdIsValid_head c).mpr hc
      rw [scdIsValid, if_pos h]
      simp [hc]

theorem scdAddWordCreate_node (w : List Byte) :
    ∀ (chr : Byte) (child : Fin 256 → SpellCheckerData),
      ∃ child', scdAddWordCreate (node chr child) w = some (node chr child') := by
  induction w with
  | nil => intro chr child; exact ⟨child, rfl⟩
  | cons c rest ih =>
    intro chr child
    obtain ⟨sub, hsub⟩ := ih (scdNormalizeChar c) callocChildren
    refine ⟨Function.update child (scdNormalizeChar c) (node (scdNormalizeChar c) sub), ?_⟩
    simp [scdAddWordCreate, scdInitNode, hsub]

theorem sound_callocChildren (chr : Byte) : Sound (node chr callocChildren) := by
  intro k; simp [callocChildren, Sound]

theorem sound_update {chr : Byte} {child : Fin 256 → SpellCheckerData} {k : Fin 256}
    {sub : SpellCheckerData} (h : Sound (node chr child)) (hs : Sound sub) :
    Sound (node chr (Function.update child k sub)) := by
  intro j
  by_cases hj : j = k
  · subst hj; simpa using hs
  · simpa [Function.update_noteq hj] using h j

theorem scdAddWordCreate_sound (w : List Byte) :
    ∀ (nd s : SpellCheckerData), Sound nd → scdAddWordCreate nd w = some s → Sound s := by
  induction w with
  | nil => intro nd s h hs; simp [scdAddWordCreate] at hs; subst hs; exact h
  | cons c rest ih =>
    intro nd s h hs
    cases nd with
    | leaf c0 => simp [scdAddWordCreate] at hs
    | node chr child =>
      obtain ⟨sub, hsub⟩ := scdAddWordCreate_node rest (scdNormalizeChar c) callocChildren
      simp [scdAddWordCreate, scdInitNode, hsub] at hs
      subst hs
      exact sound_update h (ih _ _ (sound_callocChildren _) hsub)

theorem scdAddWordCreate_hasWord (w : List Byte) (hw : ∀ b ∈ w, Allowed b) :
    ∀ (nd s : SpellCheckerData), scdAddWordCreate nd w = some s →
      scdHasWordLoop s w = some 1 := by
  induction w with
  | nil => intro nd s _; simp [scdHasWordLoop]
  | cons c rest ih =>
    intro nd s hs
    have hc : scdNormalizeChar c ≠ 0 :=
      scdNormalizeChar_ne_zero c (hw c (List.mem_cons_self _ _))
    cases nd with
    | leaf c0 => simp [scdAddWordCreate] at hs
    | node chr child =>
      obtain ⟨sub, hsub⟩ := scdAddWordCreate_node rest (scdNormalizeChar c) callocChildren
      simp [scdAddWordCreate, scdInitNode, hsub] at hs
      subst hs
      have hrest := ih (fun b hb => hw b (List.mem_cons_of_mem _ hb)) _ _ hsub
      simp [scdHasWordLoop, SpellCheckerData.chr, Ne.symm hc, hrest]

theorem scdAddWordFind_chr (w : List Byte) :
    ∀ (nd s : SpellCheckerData), scdAddWordFind nd w = some s → s.chr = nd.chr := by
  cases w with
  | nil => intro nd s hs; simp [scdAddWordFind] at hs; subst hs; rfl
  | cons c rest =>
    intro nd s hs
    cases nd with
    | leaf c0 => simp [scdAddWordFind] at hs
    | node chr child =>
      by_cases hk : 0 = (child (scdNormalizeChar c)).chr
      · obtain ⟨sub, hsub⟩ := scdAddWordCreate_node rest (scdNormalizeChar c) callocChildren
        simp [scdAddWordFind, hk.symm, scdAddWordCreate, scdInitNode, hsub] at hs
        subst hs; rfl
      · simp only [scdAddWordFind, ne_eq, hk, not_false_eq_true, if_true] at hs
        cases hf : scdAddWordFind (child (scdNormalizeChar c)) rest with
        | none => simp [hf] at hs
        | some sub => simp [hf] at hs; subst hs; rfl

theorem scdAddWordFind_sound (w : List Byte) :
    ∀ (nd s : SpellCheckerData), Sound nd → scdAddWordFind nd w = some s → Sound s := by
  induction w with
  | nil => intro nd s h hs; simp [scdAddWordFind] at hs; subst hs; exact h
  | cons c rest ih =>
    intro nd s h hs
    cases nd with
    | leaf c0 => simp [scdAddWordFind] at hs
    | node chr child =>
      by_cases hk : 0 = (child (scdNormalizeChar c)).chr
      · have hs' : scdAddWordCreate (node chr child) (c :: rest) = some s := by
          simpa [scdAddWordFind, hk.symm] using hs
        exact scdAddWordCreate_sound _ _ _ h hs'
      · simp only [scdAddWordFind, ne_eq, hk, not_false_eq_true, if_true] at hs
        cases hf : scdAddWordFind (child (scdNormalizeChar c)) rest with
        | none => simp [hf] at hs
        | some sub =>
          simp [hf] at hs; subst hs
          exact sound_update h (ih _ _ (h _) hf)

theorem scdAddWordFind_total (w : List Byte) :
    ∀ (chr : Byte) (child : Fin 256 → SpellCheckerData), Sound (node chr child) →
      ∃ child', scdAddWordFind (node chr child) w = some (node chr child') := by
  induction w with
  | nil => intro chr child _; exact ⟨child, rfl⟩
  | cons c rest ih =>
    intro chr child h
    by_cases hk : 0 = (child (scdNormalizeChar c)).chr
    · obtain ⟨child', hc⟩ := scdAddWordCreate_node (c :: rest) chr child
      exact ⟨child', by simpa [scdAddWordFind, hk.symm] using hc⟩
    · have hsub := h (scdNormalizeChar c)
      cases hch : child (scdNormalizeChar c) with
      | leaf c0 =>
        rw [hch] at hsub hk
        exact absurd hsub.symm hk
      | node chr1 child1 =>
        rw [hch] at hsub hk
        obtain ⟨child1', h1⟩ := ih chr1 child1 hsub
        refine ⟨Function.update child (scdNormalizeChar c) (node chr1 child1'), ?_⟩
        simp [scdAddWordFind, hch, SpellCheckerData.chr] at hk ⊢
        simp [hk, h1]

theorem scdAddWordFind_hasWord (w : List Byte) (hw : ∀ b ∈ w, Allowed b) :
    ∀ (nd s : SpellCheckerData), scdAddWordFind nd w = some s →
      scdHasWordLoop s w = some 1 := by
  induction w with
  | nil => intro nd s _; simp [scdHasWordLoop]
  | cons c rest ih =>
    intro nd s hs
    cases nd with
    | leaf c0 => simp [scdAddWordFind] at hs
    | node chr child =>
      by_cases hk : 0 = (child (scdNormalizeChar c)).chr
      · have hs' : scdAddWordCreate (node chr child) (c :: rest) = some s := by
          simpa [scdAddWordFind, hk.symm] using hs
        exact scdAddWordCreate_hasWord _ hw _ _ hs'
      · simp only [scdAddWordFind, ne_eq, hk, not_false_eq_true, if_true] at hs
        cases hf : scdAddWordFind (child (scdNormalizeChar c)) rest with
        | none => simp [hf] at hs
        | some sub =>
          simp [hf] at hs; subst hs
          have hchr := scdAddWordFind_chr _ _ _ hf
          have hrest := ih (fun b hb => hw b (List.mem_cons_of_mem _ hb)) _ _ hf
          have hk' : ¬ 0 = sub.chr := by rw [hchr]; exact hk
          simp [scdHasWordLoop, hk', hrest]

theorem scdAddWordFind_of_hasWord (w : List Byte) :
    ∀ (nd : SpellCheckerData), scdHasWordLoop nd w = some 1 →
      scdAddWordFind nd w = some nd := by
  induction w with
  | nil => intro nd _; simp [scdAddWordFind]
  | cons c rest ih =>
    intro nd h
    cases nd with
    | leaf c0 => simp [scdHasWordLoop] at h
    | node chr child =>
      by_cases hk : 0 = (child (scdNormalizeChar c)).chr
      · simp [scdHasWordLoop, hk.symm] at h
      · simp only [scdHasWordLoop, hk, if_false] at h
        simp [scdAddWordFind, hk, ih _ h]

theorem scdHasWordLoop_congr (w : List Byte) :
    ∀ (w' : List Byte) (nd : SpellCheckerData),
      w.map scdNormalizeChar = w'.map scdNormalizeChar →
      scdHasWordLoop nd w = scdHasWordLoop nd w' := by
  induction w with
  | nil =>
    intro w' nd h
    cases w' with
    | nil => rfl
    | cons _ _ => simp at h
  | cons c rest ih =>
    intro w' nd h
    cases w' with
    | nil => simp at h
    | cons c' rest' =>
      simp only [List.map_cons, List.cons.injEq] at h
      cases nd with
      | leaf c0 => simp [scdHasWordLoop]
      | node chr child =>
        simp only [scdHasWordLoop, h.1]
        rw [ih rest' _ h.2]

/-! ## Lemmas on the tokeniser -/

theorem splitOnP_run {α : Type} (p q : α → Bool) (hq : ∀ x, q x = !p x) (l : List α) :
    l.splitOnP p =
      l.takeWhile q ::
        (match l.dropWhile q with
         | [] => []
         | _ :: as => as.splitOnP p) := by
  induction l with
  | nil => rfl
  | cons x xs ih =>
    rw [List.splitOnP_cons]
    cases hp : p x with
    | true => simp [List.takeWhile_cons, List.dropWhile_cons, hq, hp]
    | false => simp [List.takeWhile_cons, List.dropWhile_cons, hq, hp, ih]

theorem tokens_nil (delim : List Byte) : tokens delim [] = [] := by
  simp [tokens]

theorem tokens_cons_delim (delim : List Byte) (b : Byte) (s : List Byte) (hb : b ∈ delim) :
    tokens delim (b :: s) = tokens delim s := by
  simp [tokens, List.splitOnP_cons, hb]

theorem tokens_dropWhile (delim : List Byte) (s : List Byte) :
    tokens delim (s.dropWhile (fun b => decide (b ∈ delim))) = tokens delim s := by
  induction s with
  | nil => rfl
  | cons b s ih =>
    by_cases hb : b ∈ delim
    · simp [List.dropWhile_cons, hb, ih, tokens_cons_delim]
    · simp [List.dropWhile_cons, hb]

theorem tokens_strtok (delim : List Byte) (s : List Byte) :
    tokens delim s =
      match strtok delim s with
      | (none, _) => []
      | (some t, rest) => t :: tokens delim rest := by
  rw [← tokens_dropWhile]
  unfold strtok
  cases hd : s.dropWhile (fun b => decide (b ∈ delim)) with
  | nil => simp [tokens_nil]
  | cons b bs =>
    have hb : b ∉ delim := by
      have := List.head_dropWhile_not (fun b => decide (b ∈ delim)) s
      simpa [hd] using this
    have hne : (b :: bs).takeWhile (fun x => decide (x ∉ delim)) ≠ [] := by
      simp [List.takeWhile_cons, hb]
    have hrun := splitOnP_run (fun b => decide (b ∈ delim)) (fun x => decide (x ∉ delim))
      (by intro x; simp) (b :: bs)
    simp only [tokens, hrun]
    rw [List.filter_cons_of_pos (by simpa using hne)]
    cases (b :: bs).dropWhile (fun x => decide (x ∉ delim)) with
    | nil => simp
    | cons sep as => simp

theorem strtok_length (delim : List Byte) (s t rest : List Byte)
    (h : strtok delim s = (some t, rest)) : rest.length < s.length := by
  unfold strtok at h
  have hlen := (List.dropWhile_suffix (l := s) (fun b => decide (b ∈ delim))).length_le
  cases hd : s.dropWhile (fun b => decide (b ∈ delim)) with
  | nil => simp [hd] at h
  | cons b bs =>
    rw [hd] at h hlen
    simp only [Prod.mk.injEq, Option.some.injEq] at h
    have h2 := (List.dropWhile_suffix (l := b :: bs) (fun x => decide (x ∉ delim))).length_le
    rw [← h.2, List.length_tail]
    simp only [List.length_cons] at hlen h2 ⊢
    omega

/-! ## Reachable stores are well formed -/

theorem scdInit_eq : scdInit = some (node 0 callocChildren) := rfl

theorem scdAddWord_node_some (chr : Byte) (child : Fin 256 → SpellCheckerData)
    (h : Sound (node chr child)) (word : Option (List Byte)) :
    ∃ ret child', scdAddWord (some (node chr child)) word = some (ret, some (node chr child')) ∧
      Sound (node chr child') := by
  cases word with
  | none => exact ⟨-1, child, rfl, h⟩
  | some w =>
    by_cases hv : scdIsValid w = 0
    · exact ⟨-1, child, by simp [scdAddWord, hv], h⟩
    · obtain ⟨child', hf⟩ := scdAddWordFind_total w chr child h
      exact ⟨0, child', by simp [scdAddWord, hv, hf], scdAddWordFind_sound w _ _ h hf⟩

theorem reachable_node {s : SpellCheckerData} (h : Reachable s) :
    ∃ child, s = node 0 child ∧ Sound s := by
  induction h with
  | init h0 =>
    rw [scdInit_eq] at h0
    cases h0
    exact ⟨callocChildren, rfl, sound_callocChildren 0⟩
  | add _ hadd ih =>
    obtain ⟨child, rfl, hsound⟩ := ih
    obtain ⟨ret, child', hres, hsound'⟩ := scdAddWord_node_some 0 child hsound _
    rw [hres] at hadd
    cases hadd
    exact ⟨child', rfl, hsound'⟩

theorem scdHasWordLoop_total (w : List Byte) :
    ∀ (chr : Byte) (child : Fin 256 → SpellCheckerData), Sound (node chr child) →
      scdHasWordLoop (node chr child) w = some 0 ∨ scdHasWordLoop (node chr child) w = some 1 := by
  induction w with
  | nil => intro chr child _; exact Or.inr rfl
  | cons c rest ih =>
    intro chr child h
    by_cases hk : 0 = (child (scdNormalizeChar c)).chr
    · exact Or.inl (by simp [scdHasWordLoop, hk.symm])
    · have hsub := h (scdNormalizeChar c)
      cases hch : child (scdNormalizeChar c) with
      | leaf c0 =>
        rw [hch] at hsub hk
        exact absurd hsub.symm hk
      | node chr1 child1 =>
        rw [hch] at hsub hk
        simp only [scdHasWordLoop, hch, hk, if_false]
        exact ih chr1 child1 hsub

theorem scdHasWord_total (data : Option SpellCheckerData)
    (h : ∀ s, data = some s → Sound s) (w : List Byte) :
    ∃ r, scdHasWord data (some w) = some r := by
  cases data with
  | none => exact ⟨-1, rfl⟩
  | some s =>
    cases s with
    | leaf c => exact ⟨-1, rfl⟩
    | node chr child =>
      rcases scdHasWordLoop_total w chr child (h _ rfl) with h0 | h1
      · exact ⟨0, by simpa [scdHasWord] using h0⟩
      · exact ⟨1, by simpa [scdHasWord] using h1⟩

/-! ## The spell-check loop computes the filtered token list -/

theorem scrDoSpellCheckLoop_eq (data : Option SpellCheckerData)
    (hdata : ∀ w, ∃ r, scdHasWord data (some w) = some r) :
    ∀ (fuel : Nat) (s : List Byte) (calls : List (List Byte)), s.length ≤ fuel →
      scrDoSpellCheckLoop data fuel (strtok delimiters s).1 (strtok delimiters s).2 calls =
        .ok (calls ++ (tokens delimiters s).filter
          (fun t => decide (scdHasWord data (some t) = some 0))) := by
  intro fuel
  induction fuel with
  | zero =>
    intro s calls hlen
    have hs : s = [] := List.length_eq_zero.mp (Nat.le_zero.mp hlen)
    subst hs
    simp [strtok, scrDoSpellCheckLoop, tokens_nil]
  | succ fuel ih =>
    intro s calls hlen
    have htok := tokens_strtok delimiters s
    cases hst : strtok delimiters s with
    | mk tok rest =>
      cases tok with
      | none =>
        rw [hst] at htok
        simp only at htok
        simp [scrDoSpellCheckLoop, htok]
      | some t =>
        rw [hst] at htok
        simp only at htok
        have hrest : rest.length ≤ fuel := by
          have := strtok_length delimiters s t rest hst
          omega
        obtain ⟨r, hr⟩ := hdata t
        simp only [scrDoSpellCheckLoop, hr]
        rw [ih rest _ hrest, htok]
        by_cases h0 : r = 0
        · simp [h0, hr]
        · simp [h0, hr]

theorem scrDoSpellCheck_eq (data : Option SpellCheckerData)
    (hdata : ∀ w, ∃ r, scdHasWord data (some w) = some r) (arg : ScrSpellCheckArg) :
    scrDoSpellCheck data arg =
      .ok (0, (tokens delimiters arg.text).filter
        (fun t => decide (scdHasWord data (some t) = some 0))) := by
  unfold scrDoSpellCheck
  simp only
  rw [scrDoSpellCheckLoop_eq data hdata _ _ _ (Nat.le_refl _)]
  simp

/-! ## Further lemmas used by the claims -/

set_option maxRecDepth 100000 in
theorem allowed_not_delimiter : ∀ b : Byte, Allowed b → b ∉ delimiters := by
  decide

theorem tokens_of_allowed (w : List Byte) (hw : ∀ b ∈ w, Allowed b) :
    ∀ t ∈ tokens delimiters w, t = w := by
  intro t ht
  have hsingle : w.splitOnP (fun b => decide (b ∈ delimiters)) = [w] :=
    List.splitOnP_eq_single _ w (fun x hx => by simpa using allowed_not_delimiter x (hw x hx))
  simp only [tokens, hsingle] at ht
  have := List.mem_of_mem_filter ht
  simpa using this

set_option maxRecDepth 100000 in
theorem scdNormalizeChar_upper : ∀ b : Byte, 0x41 ≤ b → b ≤ 0x5A →
    scdNormalizeChar b = b + 0x20 ∧ scdNormalizeChar (b + 0x20) = b + 0x20 := by
  decide

theorem scdNormalizeChar_caseEq {b b' : Byte} (h : CaseEq b b') :
    scdNormalizeChar b = scdNormalizeChar b' := by
  rcases h with h | ⟨h1, h2, h3⟩ | ⟨h1, h2, h3⟩
  · rw [h]
  · rw [h3, (scdNormalizeChar_upper b h1 h2).1, (scdNormalizeChar_upper b h1 h2).2]
  · rw [h3, (scdNormalizeChar_upper b' h1 h2).1, (scdNormalizeChar_upper b' h1 h2).2]

theorem map_scdNormalizeChar_sameUpToCase (w : List Byte) :
    ∀ w' : List Byte, SameUpToCase w w' →
      w.map scdNormalizeChar = w'.map scdNormalizeChar := by
  induction w with
  | nil =>
    intro w' h
    cases w' with
    | nil => rfl
    | cons _ _ => exact absurd h (by simp [SameUpToCase])
  | cons c rest ih =>
    intro w' h
    cases w' with
    | nil => exact absurd h (by simp [SameUpToCase])
    | cons c' rest' =>
      obtain ⟨hc, hrest⟩ := h
      simp [scdNormalizeChar_caseEq hc, ih rest' hrest]

theorem addWords_reachable (ws : List (List Byte)) :
    ∀ s : SpellCheckerData, Reachable s →
      ∃ s', addWords (some s) ws = some s' ∧ Reachable s' := by
  induction ws with
  | nil => intro s hs; exact ⟨s, rfl, hs⟩
  | cons w ws ih =>
    intro s hs
    obtain ⟨child, rfl, hsound⟩ := reachable_node hs
    obtain ⟨ret, child', hres, _⟩ := scdAddWord_node_some 0 child hsound (some w)
    obtain ⟨s', hs', hr'⟩ := ih _ (Reachable.add hs hres)
    exact ⟨s', by simp [addWords, hres, hs'], hr'⟩

theorem reachable_dictionary (ws : List (List Byte)) : Reachable (dictionary ws) := by
  obtain ⟨s', hs', hr'⟩ := addWords_reachable ws _ (Reachable.init scdInit_eq)
  have : dictionary ws = s' := by
    unfold dictionary
    rw [scdInit_eq, hs']
    rfl
  rw [this]
  exact hr'

theorem scdAddWord_valid {s : SpellCheckerData} (hs : Reachable s) {w : List Byte}
    (hw : ∀ b ∈ w, Allowed b) :
    ∃ s', scdAddWord (some s) (some w) = some (0, some s') ∧ Sound s' ∧
      scdHasWordLoop s' w = some 1 ∧ ∃ child', s' = node 0 child' := by
  obtain ⟨child, rfl, hsound⟩ := reachable_node hs
  have hv : scdIsValid w ≠ 0 := by
    rw [(scdIsValid_eq_one_iff w).mpr hw]; decide
  obtain ⟨child', hf⟩ := scdAddWordFind_total w 0 child hsound
  exact ⟨node 0 child', by simp [scdAddWord, hv, hf], scdAddWordFind_sound w _ _ hsound hf,
    scdAddWordFind_hasWord w hw _ _ hf, child', rfl⟩

/-! ## The claims -/

/-- C1 (round trip). On a store reachable from `scdInit`, adding a word whose bytes are
all allowed succeeds; afterwards `scdHasWord` returns 1 for the word and a spell
check of the text made of the word alone calls the callback zero times. -/
theorem round_trip (s : SpellCheckerData) (hs : Reachable s) (w : List Byte)
    (hw : ∀ b ∈ w, Allowed b) (callback : SpellCheckerCallback) :
    ∃ s', scdAddWord (some s) (some w) = some (0, some s') ∧
      scdHasWord (some s') (some w) = some 1 ∧
      scrDoSpellCheck (some s') ⟨w, callback⟩ = .ok (0, []) := by
  obtain ⟨s', hadd, hsound, hhas, child', rfl⟩ := scdAddWord_valid hs hw
  have hhas' : scdHasWord (some (node 0 child')) (some w) = some 1 := by
    simpa [scdHasWord] using hhas
  refine ⟨_, hadd, hhas', ?_⟩
  rw [scrDoSpellCheck_eq _ (scdHasWord_total _ (fun s h => by cases h; exact hsound))]
  have hnil : (tokens delimiters w).filter
      (fun t => decide (scdHasWord (some (node 0 child')) (some t) = some 0)) = [] := by
    rw [List.filter_eq_nil_iff]
    intro t ht
    rw [tokens_of_allowed w hw t ht, hhas']
    decide
  simp only [hnil]

/-- Witness of C1: the word "Apple" added to the dictionary holding "the". -/
theorem round_trip_witness :
    Reachable (dictionary [str "the"]) ∧ (∀ b ∈ str "Apple", Allowed b) ∧
    ∃ s', scdAddWord (some (dictionary [str "the"])) (some (str "Apple")) = some (0, some s') ∧
      scdHasWord (some s') (some (str "Apple")) = some 1 ∧
      scrDoSpellCheck (some s') ⟨str "Apple", 0⟩ = .ok (0, []) :=
  ⟨reachable_dictionary _, by decide!,
    round_trip _ (reachable_dictionary _) _ (by decide!) 0⟩

/-- C2 (case insensitivity). On a reachable store, after a valid word `w` has been
added, `scdHasWord` returns 1 for every word that differs from `w` only in the case
of ASCII letters, and a spell check of a text all of whose tokens are such words
calls the callback zero times. -/
theorem case_insensitive (s : SpellCheckerData) (hs : Reachable s) (w w' : List Byte)
    (hw : ∀ b ∈ w, Allowed b) (hcase : SameUpToCase w w')
    (text : List Byte) (htext : ∀ t ∈ tokens delimiters text, SameUpToCase w t)
    (callback : SpellCheckerCallback) :
    ∃ s', scdAddWord (some s) (some w) = some (0, some s') ∧
      scdHasWord (some s') (some w') = some 1 ∧
      scrDoSpellCheck (some s') ⟨text, callback⟩ = .ok (0, []) := by
  obtain ⟨s', hadd, hsound, hhas, child', rfl⟩ := scdAddWord_valid hs hw
  have hvariant : ∀ t, SameUpToCase w t →
      scdHasWord (some (node 0 child')) (some t) = some 1 := by
    intro t ht
    have := scdHasWordLoop_congr w t (node 0 child') (map_scdNormalizeChar_sameUpToCase w t ht)
    simpa [scdHasWord, ← this] using hhas
  refine ⟨_, hadd, hvariant w' hcase, ?_⟩
  rw [scrDoSpellCheck_eq _ (scdHasWord_total _ (fun s h => by cases h; exact hsound))]
  have hnil : (tokens delimiters text).filter
      (fun t => decide (scdHasWord (some (node 0 child')) (some t) = some 0)) = [] := by
    rw [List.filter_eq_nil_iff]
    intro t ht
    rw [hvariant t (htext t ht)]
    decide
  simp only [hnil]

/-- Witness of C2: "Apple" is added to the empty dictionary, "ApPlE" is looked up and
the text "apple APPLE ApPlE" is checked. -/
theorem case_insensitive_witness :
    Reachable (dictionary []) ∧ (∀ b ∈ str "Apple", Allowed b) ∧
    SameUpToCase (str "Apple") (str "ApPlE") ∧
    (∀ t ∈ tokens delimiters (str "apple APPLE ApPlE"), SameUpToCase (str "Apple") t) ∧
    ∃ s', scdAddWord (some (dictionary [])) (some (str "Apple")) = some (0, some s') ∧
      scdHasWord (some s') (some (str "ApPlE")) = some 1 ∧
      scrDoSpellCheck (some s') ⟨str "apple APPLE ApPlE", 0⟩ = .ok (0, []) :=
  ⟨reachable_dictionary _, by decide!, by decide!, by decide!,
    case_insensitive _ (reachable_dictionary _) _ _ (by decide!) (by decide!) _ (by decide!) 0⟩

/-- C3 (order and multiplicity of reports). On a reachable store the words the spell
check hands to the callback are, in this order and with repetitions, the tokens
of the text for which `scdHasWord` returns 0. -/
theorem reports_in_order (s : SpellCheckerData) (hs : Reachable s) (text : List Byte)
    (callback : SpellCheckerCallback) :
    scrDoSpellCheck (some s) ⟨text, callback⟩ =
      .ok (0, (tokens delimiters text).filter
        (fun t => decide (scdHasWord (some s) (some t) = some 0))) := by
  obtain ⟨child, rfl, hsound⟩ := reachable_node hs
  exact scrDoSpellCheck_eq _ (scdHasWord_total _ (fun s h => by cases h; exact hsound)) _

/-- Witness of C3: with the dictionary holding "the" and "fox", the text
"the qwick brown fox jmups" reports qwick, brown and jmups, and "zzz zzz" reports
"zzz" twice. -/
theorem reports_in_order_witness :
    Reachable (dictionary [str "the", str "fox"]) ∧
    scrDoSpellCheck (some (dictionary [str "the", str "fox"]))
        ⟨str "the qwick brown fox jmups", 0⟩ =
      .ok (0, (tokens delimiters (str "the qwick brown fox jmups")).filter
        (fun t => decide (scdHasWord (some (dictionary [str "the", str "fox"])) (some t)
          = some 0))) ∧
    (tokens delimiters (str "the qwick brown fox jmups")).filter
        (fun t => decide (scdHasWord (some (dictionary [str "the", str "fox"])) (some t)
          = some 0)) = [str "qwick", str "brown", str "jmups"] ∧
    (tokens delimiters (str "zzz zzz")).filter
        (fun t => decide (scdHasWord (some (dictionary [str "the", str "fox"])) (some t)
          = some 0)) = [str "zzz", str "zzz"] :=
  ⟨reachable_dictionary _, reports_in_order _ (reachable_dictionary _) _ 0,
    by decide!, by decide!⟩

/-- C4, the code at the failing input: on a newly created dictionary
`spellCheckerAddWord` returns 0 for "foo!bar", whose byte `!` is not allowed. -/
theorem spellCheckerAddWord_accepts_invalid :
    (∃ b ∈ str "foo!bar", ¬ Allowed b) ∧
    (spellCheckerAddWord createSpellCheckerDictionary (some (str "foo!bar"))).toOption.map
      Prod.fst = some 0 :=
  ⟨by decide!, by decide!⟩

/-- C5 (insert validation). On a store with a child table `scdAddWord` returns -1 exactly
when some byte of the word is not allowed, a call that returns -1 leaves the
store as it was, and on a well-formed store a word of allowed bytes is accepted
with 0. -/
theorem add_validation (s : SpellCheckerData) (hs : s.hasChild = true) (w : List Byte) :
    ((∃ st, scdAddWord (some s) (some w) = some (-1, st)) ↔ ∃ b ∈ w, ¬ Allowed b) ∧
    (∀ st, scdAddWord (some s) (some w) = some (-1, st) → st = some s) ∧
    (Sound s → (∀ b ∈ w, Allowed b) →
      ∃ s', scdAddWord (some s) (some w) = some (0, some s')) := by
  cases s with
  | leaf c => simp [SpellCheckerData.hasChild] at hs
  | node chr child =>
    by_cases hv : scdIsValid w = 0
    · have hbad := (scdIsValid_eq_zero_iff w).mp hv
      refine ⟨⟨fun _ => hbad, fun _ => ⟨some (node chr child), by simp [scdAddWord, hv]⟩⟩, ?_, ?_⟩
      · intro st hst
        simp [scdAddWord, hv] at hst
        exact hst.symm
      · intro _ hall
        obtain ⟨b, hb, hnot⟩ := hbad
        exact absurd (hall b hb) hnot
    · have hgood : ¬ ∃ b ∈ w, ¬ Allowed b := fun h => hv ((scdIsValid_eq_zero_iff w).mpr h)
      have hnot : ∀ st, scdAddWord (some (node chr child)) (some w) ≠ some (-1, st) := by
        intro st hst
        simp only [scdAddWord, hv, if_false] at hst
        cases hf : scdAddWordFind (node chr child) w with
        | none => simp [hf] at hst
        | some s' => simp [hf] at hst
      refine ⟨⟨fun ⟨st, hst⟩ => absurd hst (hnot st), fun h => absurd h hgood⟩, ?_, ?_⟩
      · intro st hst
        exact absurd hst (hnot st)
      · intro hsound _
        obtain ⟨child', hf⟩ := scdAddWordFind_total w chr child hsound
        exact ⟨node chr child', by simp [scdAddWord, hv, hf]⟩

/-- Witness of C5: the word "foo!bar" on the empty store. -/
theorem add_validation_witness :
    (node 0 callocChildren).hasChild = true ∧
    ((∃ st, scdAddWord (some (node 0 callocChildren)) (some (str "foo!bar")) = some (-1, st)) ↔
      ∃ b ∈ str "foo!bar", ¬ Allowed b) ∧
    (∀ st, scdAddWord (some (node 0 callocChildren)) (some (str "foo!bar")) = some (-1, st) →
      st = some (node 0 callocChildren)) ∧
    (Sound (node 0 callocChildren) → (∀ b ∈ str "foo!bar", Allowed b) →
      ∃ s', scdAddWord (some (node 0 callocChildren)) (some (str "foo!bar")) =
        some (0, some s')) :=
  ⟨rfl, add_validation (node 0 callocChildren) rfl (str "foo!bar")⟩

/-- C6, the code at the failing input: on the empty dictionary the spell check of the
text "Hello" hands the callback the token as it stands in the text, with its
upper-case `H`, and not the lower-cased "hello". -/
theorem callback_word_not_lowercased :
    scrDoSpellCheck scdInit ⟨str "Hello", 0⟩ = .ok (0, [str "Hello"]) ∧
    str "Hello" ≠ (str "Hello").map scdNormalizeChar ∧
    (∃ b ∈ str "Hello", 0x41 ≤ b ∧ b ≤ 0x5A) :=
  ⟨by decide!, by decide!, by decide!⟩

/-- C7, the code at the failing input: the spell check of the text "foo!bar" looks up
and reports the single token "foo!bar"; the byte `!` is not allowed and yet does
not split the text. -/
theorem disallowed_byte_does_not_split :
    scrDoSpellCheck scdInit ⟨str "foo!bar", 0⟩ = .ok (0, [str "foo!bar"]) ∧
    tokens delimiters (str "foo!bar") = [str "foo!bar"] ∧
    (∃ b ∈ str "foo!bar", ¬ Allowed b) :=
  ⟨by decide!, by decide!, by decide!⟩

/-- C8 (idempotence of adding). On a reachable store a second `scdAddWord` with the same
word returns what the first returned and leaves the store the first produced. -/
theorem add_idempotent (s : SpellCheckerData) (hs : Reachable s) (w : List Byte) :
    ∃ ret s', scdAddWord (some s) (some w) = some (ret, some s') ∧
      scdAddWord (some s') (some w) = some (ret, some s') := by
  obtain ⟨child, rfl, hsound⟩ := reachable_node hs
  by_cases hv : scdIsValid w = 0
  · exact ⟨-1, node 0 child, by simp [scdAddWord, hv], by simp [scdAddWord, hv]⟩
  · have hw : ∀ b ∈ w, Allowed b := by
      intro b hb
      by_contra hnot
      exact hv ((scdIsValid_eq_zero_iff w).mpr ⟨b, hb, hnot⟩)
    obtain ⟨child', hf⟩ := scdAddWordFind_total w 0 child hsound
    have hagain := scdAddWordFind_of_hasWord w _ (scdAddWordFind_hasWord w hw _ _ hf)
    exact ⟨0, node 0 child', by simp [scdAddWord, hv, hf], by simp [scdAddWord, hv, hagain]⟩

/-- Witness of C8: "then" added twice to the dictionary holding "the". -/
theorem add_idempotent_witness :
    Reachable (dictionary [str "the"]) ∧
    ∃ ret s', scdAddWord (some (dictionary [str "the"])) (some (str "then")) =
        some (ret, some s') ∧
      scdAddWord (some s') (some (str "then")) = some (ret, some s') :=
  ⟨reachable_dictionary _, add_idempotent _ (reachable_dictionary _) _⟩

/-- C9 (a duplicate is accepted without effect). On a reachable store, for a word of
allowed bytes that `scdHasWord` already finds, `scdAddWord` returns 0 and the store
after the call is the store before it. -/
theorem duplicate_accepted (s : SpellCheckerData) (hs : Reachable s) (w : List Byte)
    (hw : ∀ b ∈ w, Allowed b) (hhas : scdHasWord (some s) (some w) = some 1) :
    scdAddWord (some s) (some w) = some (0, some s) := by
  obtain ⟨child, rfl, _⟩ := reachable_node hs
  have hv : scdIsValid w ≠ 0 := by
    rw [(scdIsValid_eq_one_iff w).mpr hw]; decide
  have hloop : scdHasWordLoop (node 0 child) w = some 1 := by
    simpa [scdHasWord] using hhas
  simp [scdAddWord, hv, scdAddWordFind_of_hasWord w _ hloop]

/-- Witness of C9: "Then" added to the dictionary that holds "then". -/
theorem duplicate_accepted_witness :
    Reachable (dictionary [str "then"]) ∧ (∀ b ∈ str "Then", Allowed b) ∧
    scdHasWord (some (dictionary [str "then"])) (some (str "Then")) = some 1 ∧
    scdAddWord (some (dictionary [str "then"])) (some (str "Then")) =
      some (0, some (dictionary [str "then"])) :=
  ⟨reachable_dictionary _, by decide!, by decide!,
    duplicate_accepted _ (reachable_dictionary _) _ (by decide!) (by decide!)⟩

/-- C10 (a rejected add changes nothing and does not stop the worker). When the message
at the head of the queue is an AddWord whose word has a byte that is not
allowed and the runner is running, one pass of the worker loop succeeds with
`handled = 1`, leaves the store, the recorded calls and `isRunning` as they were,
unlinks and frees the message, and the loop goes on with the next pass. -/
theorem rejected_add_keeps_worker (runner : SpellCheckerRunner) (head : Nat) (msg : ScrMsg)
    (w : List Byte) (hhead : runner.csrMsgHead = some head)
    (hmsg : runner.heap head = some msg) (htype : msg.type = .SCR_MSG_ADD)
    (harg : msg.arg = .word w) (hbad : ∃ b ∈ w, ¬ Allowed b)
    (hrun : runner.isRunning ≠ 0) :
    ∃ r', thread_runner_body runner = .ok (1, r') ∧
      r'.data = runner.data ∧ r'.calls = runner.calls ∧ r'.isRunning = runner.isRunning ∧
      r'.csrMsgHead = msg.next ∧ r'.heap head = none ∧
      (∀ a, a ≠ head → r'.heap a = runner.heap a) ∧
      ∀ fuel, thread_runner (fuel + 1) runner = thread_runner_loop fuel 1 r' := by
  have hv : scdIsValid w = 0 := (scdIsValid_eq_zero_iff w).mpr hbad
  have hadd : ∃ ret, scdAddWord runner.data (some w) = some (ret, runner.data) := by
    cases hd : runner.data with
    | none => exact ⟨-1, rfl⟩
    | some s =>
      cases s with
      | leaf c => exact ⟨-1, rfl⟩
      | node chr child => exact ⟨-1, by simp [scdAddWord, hv]⟩
  obtain ⟨ret, hret⟩ := hadd
  have hswitch : thread_runner_switch runner msg = .ok runner := by
    simp [thread_runner_switch, htype, harg, hret]
  have hbody : thread_runner_body runner =
      .ok (1, { runner with heap := Function.update runner.heap head none
                            csrMsgHead := msg.next }) := by
    simp [thread_runner_body, hhead, hmsg, hswitch]
  refine ⟨_, hbody, rfl, rfl, rfl, rfl, by simp, ?_, ?_⟩
  · intro a ha
    simp [Function.update_noteq ha]
  · intro fuel
    conv_lhs => rw [thread_runner, thread_runner_loop]
    simp [hrun, hbody]

/-- Witness of C10: on the initial runner the queue holds AddWord("foo!bar"), a check
of "foo", a check of "bar" and the shutdown message; the worker run to its end
has reported "foo" and "bar". -/
theorem rejected_add_keeps_worker_witness :
    (enqueue initialRunner
      [(.SCR_MSG_ADD, .word (str "foo!bar")), (.SCR_MSG_SPELL_CHECK, .spellCheck ⟨str "foo", 7⟩),
       (.SCR_MSG_SPELL_CHECK, .spellCheck ⟨str "bar", 7⟩), (.SCR_MSG_FINALIZE, .null)]).csrMsgHead
      = some 0 ∧
    (enqueue initialRunner
      [(.SCR_MSG_ADD, .word (str "foo!bar")), (.SCR_MSG_SPELL_CHECK, .spellCheck ⟨str "foo", 7⟩),
       (.SCR_MSG_SPELL_CHECK, .spellCheck ⟨str "bar", 7⟩), (.SCR_MSG_FINALIZE, .null)]).heap 0
      = some ⟨.SCR_MSG_ADD, .word (str "foo!bar"), some 1⟩ ∧
    (∃ b ∈ str "foo!bar", ¬ Allowed b) ∧
    (enqueue initialRunner
      [(.SCR_MSG_ADD, .word (str "foo!bar")), (.SCR_MSG_SPELL_CHECK, .spellCheck ⟨str "foo", 7⟩),
       (.SCR_MSG_SPELL_CHECK, .spellCheck ⟨str "bar", 7⟩), (.SCR_MSG_FINALIZE, .null)]).isRunning
      ≠ 0 ∧
    (∃ r', thread_runner_body (enqueue initialRunner
        [(.SCR_MSG_ADD, .word (str "foo!bar")),
         (.SCR_MSG_SPELL_CHECK, .spellCheck ⟨str "foo", 7⟩),
         (.SCR_MSG_SPELL_CHECK, .spellCheck ⟨str "bar", 7⟩), (.SCR_MSG_FINALIZE, .null)])
        = .ok (1, r') ∧
      r'.data = scdInit ∧ r'.calls = [] ∧ r'.isRunning = 1 ∧ r'.csrMsgHead = some 1) ∧
    callsAfter 4 (enqueue initialRunner
      [(.SCR_MSG_ADD, .word (str "foo!bar")), (.SCR_MSG_SPELL_CHECK, .spellCheck ⟨str "foo", 7⟩),
       (.SCR_MSG_SPELL_CHECK, .spellCheck ⟨str "bar", 7⟩), (.SCR_MSG_FINALIZE, .null)])
      = some [(7, str "foo"), (7, str "bar")] := by
  obtain ⟨r', hbody, hdata, hcalls, hrunning, hnext, _⟩ :=
    rejected_add_keeps_worker
      (enqueue initialRunner
        [(.SCR_MSG_ADD, .word (str "foo!bar")),
         (.SCR_MSG_SPELL_CHECK, .spellCheck ⟨str "foo", 7⟩),
         (.SCR_MSG_SPELL_CHECK, .spellCheck ⟨str "bar", 7⟩), (.SCR_MSG_FINALIZE, .null)])
      0 ⟨.SCR_MSG_ADD, .word (str "foo!bar"), some 1⟩ (str "foo!bar")
      (by decide!) (by decide!) rfl rfl (by decide!) (by decide!)
  exact ⟨by decide!, by decide!, by decide!, by decide!,
    ⟨r', hbody, hdata, hcalls, hrunning, hnext⟩, by decide!⟩

/-! ## The trie invariant -/

set_option maxRecDepth 100000 in
theorem normAllowed_scdNormalizeChar : ∀ c : Byte, Allowed c → NormAllowed (scdNormalizeChar c) := by
  decide

set_option maxRecDepth 100000 in
theorem allowed_of_normAllowed : ∀ c : Byte, NormAllowed (scdNormalizeChar c) → Allowed c := by
  decide

set_option maxRecDepth 100000 in
theorem normAllowed_not_upper : ∀ b : Byte, NormAllowed b → ¬ (0x41 ≤ b ∧ b ≤ 0x5A) := by
  decide

theorem trieInv_callocChildren (chr : Byte) : TrieInv (node chr callocChildren) := by
  intro b
  simp [callocChildren, SlotOk, SpellCheckerData.chr, SpellCheckerData.hasChild]

theorem trieInv_update {chr : Byte} {child : Fin 256 → SpellCheckerData} {k : Fin 256}
    {sub : SpellCheckerData} (h : TrieInv (node chr child)) (hchr : sub.chr = k)
    (hk : k ≠ 0) (hn : NormAllowed k) (hs : TrieInv sub) :
    TrieInv (node chr (Function.update child k sub)) := by
  intro j
  by_cases hj : j = k
  · subst hj
    have hchild : sub.hasChild = true := by
      cases sub with
      | leaf c => exact absurd hs (by simp [TrieInv])
      | node c ch => rfl
    simp only [Function.update_same]
    exact ⟨⟨fun _ => ⟨hchr, hn, hchild⟩, fun h0 => absurd (hchr ▸ h0) hk⟩, fun _ => hs⟩
  · simpa [Function.update_noteq hj] using h j

theorem scdAddWordCreate_trieInv (w : List Byte) (hw : ∀ b ∈ w, Allowed b) :
    ∀ (chr : Byte) (child : Fin 256 → SpellCheckerData) (s : SpellCheckerData),
      TrieInv (node chr child) → scdAddWordCreate (node chr child) w = some s →
      TrieInv s ∧ s.chr = chr := by
  induction w with
  | nil =>
    intro chr child s h hs
    simp [scdAddWordCreate] at hs
    subst hs
    exact ⟨h, rfl⟩
  | cons c rest ih =>
    intro chr child s h hs
    obtain ⟨sub, hsub⟩ := scdAddWordCreate_node rest (scdNormalizeChar c) callocChildren
    simp [scdAddWordCreate, scdInitNode, hsub] at hs
    subst hs
    have hc := hw c (List.mem_cons_self _ _)
    have hrest := ih (fun b hb => hw b (List.mem_cons_of_mem _ hb)) _ _ _
      (trieInv_callocChildren _) hsub
    exact ⟨trieInv_update h hrest.2 (scdNormalizeChar_ne_zero c hc)
      (normAllowed_scdNormalizeChar c hc) hrest.1, rfl⟩

theorem scdAddWordFind_trieInv (w : List Byte) (hw : ∀ b ∈ w, Allowed b) :
    ∀ (nd s : SpellCheckerData), TrieInv nd → scdAddWordFind nd w = some s → TrieInv s := by
  induction w with
  | nil => intro nd s h hs; simp [scdAddWordFind] at hs; subst hs; exact h
  | cons c rest ih =>
    intro nd s h hs
    cases nd with
    | leaf c0 => simp [scdAddWordFind] at hs
    | node chr child =>
      by_cases hk : 0 = (child (scdNormalizeChar c)).chr
      · have hs' : scdAddWordCreate (node chr child) (c :: rest) = some s := by
          simpa [scdAddWordFind, hk.symm] using hs
        exact (scdAddWordCreate_trieInv _ hw _ _ _ h hs').1
      · simp only [scdAddWordFind, ne_eq, hk, not_false_eq_true, if_true] at hs
        cases hf : scdAddWordFind (child (scdNormalizeChar c)) rest with
        | none => simp [hf] at hs
        | some sub =>
          simp [hf] at hs; subst hs
          have hslot := h (scdNormalizeChar c)
          have hne : (child (scdNormalizeChar c)).chr ≠ 0 := fun h0 => hk h0.symm
          have hchr := scdAddWordFind_chr _ _ _ hf
          have hsub := ih (fun b hb => hw b (List.mem_cons_of_mem _ hb)) _ _ (hslot.2 hne) hf
          obtain ⟨hidx, hnorm, _⟩ := hslot.1.1 hne
          exact trieInv_update h (hchr.trans hidx) (by rw [← hidx]; exact hne) hnorm hsub

theorem reachable_trieInv {s : SpellCheckerData} (h : Reachable s) : TrieInv s := by
  induction h with
  | init h0 =>
    rw [scdInit_eq] at h0
    cases h0
    exact trieInv_callocChildren 0
  | @add s s' word ret hr hadd ih =>
    obtain ⟨child, rfl, _⟩ := reachable_node hr
    cases word with
    | none => simp [scdAddWord] at hadd; rw [← hadd.2]; exact ih
    | some w =>
      by_cases hv : scdIsValid w = 0
      · simp [scdAddWord, hv] at hadd; rw [← hadd.2]; exact ih
      · have hw : ∀ b ∈ w, Allowed b := by
          intro b hb
          by_contra hnot
          exact hv ((scdIsValid_eq_zero_iff w).mpr ⟨b, hb, hnot⟩)
        simp only [scdAddWord, hv, if_false] at hadd
        cases hf : scdAddWordFind (node 0 child) w with
        | none => simp [hf] at hadd
        | some s1 =>
          simp [hf] at hadd
          rw [← hadd.2]
          exact scdAddWordFind_trieInv w hw _ _ ih hf

theorem trieInv_slotAt (path : List (Fin 256)) :
    ∀ (nd : SpellCheckerData) (c : Byte) (child : Fin 256 → SpellCheckerData),
      TrieInv nd → slotAt nd path = some (node c child) → TrieInv (node c child) := by
  induction path with
  | nil => intro nd c child h hs; simp [slotAt] at hs; subst hs; exact h
  | cons b bs ih =>
    intro nd c child h hs
    cases nd with
    | leaf c0 => simp [slotAt] at hs
    | node c0 ch =>
      simp only [slotAt] at hs
      by_cases h0 : (ch b).chr = 0
      · have hno := (h b).1.2 h0
        cases hcb : ch b with
        | leaf c1 =>
          rw [hcb] at hs
          cases bs with
          | nil => simp [slotAt] at hs
          | cons _ _ => simp [slotAt] at hs
        | node c1 ch1 => rw [hcb] at hno; simp [SpellCheckerData.hasChild] at hno
      · exact ih _ _ _ ((h b).2 h0) hs

theorem scdHasWordLoop_invalid (x : List Byte) (hx : ∃ b ∈ x, ¬ Allowed b) :
    ∀ nd : SpellCheckerData, TrieInv nd → scdHasWordLoop nd x = some 0 := by
  induction x with
  | nil => simp at hx
  | cons c rest ih =>
    intro nd h
    cases nd with
    | leaf c0 => exact absurd h (by simp [TrieInv])
    | node chr child =>
      by_cases hk : 0 = (child (scdNormalizeChar c)).chr
      · simp [scdHasWordLoop, hk.symm]
      · have hne : (child (scdNormalizeChar c)).chr ≠ 0 := fun h0 => hk h0.symm
        obtain ⟨_, hnorm, _⟩ := (h (scdNormalizeChar c)).1.1 hne
        have hc : Allowed c := allowed_of_normAllowed c hnorm
        have hrest : ∃ b ∈ rest, ¬ Allowed b := by
          obtain ⟨b, hb, hnot⟩ := hx
          rcases List.mem_cons.mp hb with rfl | hb'
          · exact absurd hc hnot
          · exact ⟨b, hb', hnot⟩
        simp only [scdHasWordLoop, hk, if_false]
        exact ih hrest _ ((h (scdNormalizeChar c)).2 hne)

theorem scdHasWordLoop_append (p q : List Byte) :
    ∀ nd : SpellCheckerData, scdHasWordLoop nd (p ++ q) = some 1 →
      scdHasWordLoop nd p = some 1 := by
  induction p with
  | nil => intro nd _; simp [scdHasWordLoop]
  | cons c rest ih =>
    intro nd h
    cases nd with
    | leaf c0 => simp [scdHasWordLoop] at h
    | node chr child =>
      by_cases hk : 0 = (child (scdNormalizeChar c)).chr
      · simp [scdHasWordLoop, hk.symm] at h
      · simp only [List.cons_append, scdHasWordLoop, hk, if_false] at h ⊢
        exact ih _ h

/-! ## The tokens of the strtok loop -/

theorem scrDoSpellCheckWords_eq :
    ∀ (fuel : Nat) (s : List Byte), s.length ≤ fuel →
      scrDoSpellCheckWords fuel (strtok delimiters s).1 (strtok delimiters s).2 =
        tokens delimiters s := by
  intro fuel
  induction fuel with
  | zero =>
    intro s hlen
    have hs : s = [] := List.length_eq_zero.mp (Nat.le_zero.mp hlen)
    subst hs
    simp [strtok, scrDoSpellCheckWords, tokens_nil]
  | succ fuel ih =>
    intro s hlen
    have htok := tokens_strtok delimiters s
    cases hst : strtok delimiters s with
    | mk tok rest =>
      cases tok with
      | none =>
        rw [hst] at htok
        simp only at htok
        simp [scrDoSpellCheckWords, htok]
      | some t =>
        rw [hst] at htok
        simp only at htok
        have hrest : rest.length ≤ fuel := by
          have := strtok_length delimiters s t rest hst
          omega
        simp only [scrDoSpellCheckWords]
        rw [ih rest hrest, htok]

theorem scrTokens_eq (text : List Byte) : scrTokens text = tokens delimiters text :=
  scrDoSpellCheckWords_eq _ _ (Nat.le_refl _)

theorem splitOnP_pieces {α : Type} (p : α → Bool) (s : List α) :
    (∀ piece ∈ s.splitOnP p, ∀ x ∈ piece, p x = false) ∧
    (s.splitOnP p).flatten = s.filter (fun x => !p x) ∧
    ∃ h tl, s.splitOnP p = h :: tl ∧ h <+: s ∧ ∀ t ∈ tl, t <:+: s := by
  induction s with
  | nil =>
    refine ⟨?_, ?_, [], [], ?_, ?_, ?_⟩ <;> simp [List.splitOnP_nil]
  | cons a s ih =>
    obtain ⟨hfree, hflat, h, tl, hsplit, hpre, hinf⟩ := ih
    rw [List.splitOnP_cons]
    cases hp : p a with
    | true =>
      simp only [if_true]
      refine ⟨?_, ?_, [], s.splitOnP p, rfl, List.nil_prefix, ?_⟩
      · intro piece hpiece
        rcases List.mem_cons.mp hpiece with rfl | hmem
        · simp
        · exact hfree piece hmem
      · simp [hflat, hp]
      · intro t ht
        rw [hsplit] at ht
        rcases List.mem_cons.mp ht with rfl | hmem
        · exact (hpre.isInfix).trans (List.infix_cons (List.infix_refl _))
        · exact (hinf t hmem).trans (List.infix_cons (List.infix_refl _))
    | false =>
      simp only [Bool.false_eq_true, if_false, hsplit, List.modifyHead_cons]
      refine ⟨?_, ?_, a :: h, tl, rfl, ?_, ?_⟩
      · intro piece hpiece
        rcases List.mem_cons.mp hpiece with rfl | hmem
        · intro x hx
          rcases List.mem_cons.mp hx with rfl | hx'
          · exact hp
          · exact hfree h (by rw [hsplit]; exact List.mem_cons_self _ _) x hx'
        · exact hfree piece (by rw [hsplit]; exact List.mem_cons_of_mem _ hmem)
      · rw [hsplit] at hflat
        simp only [List.flatten_cons, List.cons_append] at hflat ⊢
        simp [hflat, hp]
      · exact (List.prefix_cons_inj a).mpr hpre
      · intro t ht
        exact (hinf t ht).trans (List.infix_cons (List.infix_refl _))

theorem flatten_filter_nonempty {α : Type} (l : List (List α)) :
    (l.filter (fun t => !t.isEmpty)).flatten = l.flatten := by
  induction l with
  | nil => rfl
  | cons t l ih =>
    cases t with
    | nil => simpa using ih
    | cons x xs => simp [List.filter_cons, ih]

theorem tokens_contract (delim : List Byte) (text : List Byte) :
    (∀ t ∈ tokens delim text, t ≠ [] ∧ (∀ b ∈ t, b ∉ delim) ∧ t <:+: text) ∧
    (tokens delim text).flatten = text.filter (fun b => decide (b ∉ delim)) := by
  obtain ⟨hfree, hflat, h, tl, hsplit, hpre, hinf⟩ :=
    splitOnP_pieces (fun b => decide (b ∈ delim)) text
  refine ⟨?_, ?_⟩
  · intro t ht
    have hmem : t ∈ text.splitOnP (fun b => decide (b ∈ delim)) := List.mem_of_mem_filter ht
    have hne : t ≠ [] := by
      have := (List.mem_filter.mp ht).2
      intro h0
      simp [h0] at this
    refine ⟨hne, ?_, ?_⟩
    · intro b hb
      simpa using hfree t hmem b hb
    · rw [hsplit] at hmem
      rcases List.mem_cons.mp hmem with rfl | hm
      · exact hpre.isInfix
      · exact hinf t hm
  · unfold tokens
    rw [flatten_filter_nonempty, hflat]
    congr 1
    funext b
    simp

theorem scdHasWord_empty_store (t : List Byte) (ht : t ≠ []) :
    scdHasWord scdInit (some t) = some 0 := by
  cases t with
  | nil => exact absurd rfl ht
  | cons c rest =>
    simp [scdInit_eq, scdHasWord, scdHasWordLoop, callocChildren, SpellCheckerData.chr]

/-- C14 (prefixes count as words). On a reachable store, after a word of allowed bytes
has been added, `scdHasWord` returns 1 for every initial segment of the word, the
empty one and the word itself included. -/
theorem initial_segments_found (s : SpellCheckerData) (hs : Reachable s) (w : List Byte)
    (hw : ∀ b ∈ w, Allowed b) (p : List Byte) (hp : p <+: w) :
    ∃ s', scdAddWord (some s) (some w) = some (0, some s') ∧
      scdHasWord (some s') (some p) = some 1 := by
  obtain ⟨s', hadd, _, hhas, child', rfl⟩ := scdAddWord_valid hs hw
  obtain ⟨q, rfl⟩ := hp
  exact ⟨_, hadd, by simpa [scdHasWord] using scdHasWordLoop_append p q _ hhas⟩

/-- Witness of C14: "then" is added to the empty dictionary and "the", never added
itself, is found. -/
theorem initial_segments_found_witness :
    Reachable (dictionary []) ∧ (∀ b ∈ str "then", Allowed b) ∧ str "the" <+: str "then" ∧
    ∃ s', scdAddWord (some (dictionary [])) (some (str "then")) = some (0, some s') ∧
      scdHasWord (some s') (some (str "the")) = some 1 :=
  ⟨reachable_dictionary _, by decide!, ⟨str "n", by decide!⟩,
    initial_segments_found _ (reachable_dictionary _) _ (by decide!) _ ⟨str "n", by decide!⟩⟩

/-- C15 (lookup of malformed input is false). On a reachable store `scdHasWord` returns 0
for every word with a byte that is not allowed; the result is a value and not
undefined behaviour, so the walk never enters a struct without a child table. -/
theorem malformed_lookup_false (s : SpellCheckerData) (hs : Reachable s) (x : List Byte)
    (hx : ∃ b ∈ x, ¬ Allowed b) :
    scdHasWord (some s) (some x) = some 0 := by
  obtain ⟨child, rfl, _⟩ := reachable_node hs
  simpa [scdHasWord] using scdHasWordLoop_invalid x hx _ (reachable_trieInv hs)

/-- Witness of C15: "fo!" looked up in the dictionary holding "the" and "fox". -/
theorem malformed_lookup_false_witness :
    Reachable (dictionary [str "the", str "fox"]) ∧ (∃ b ∈ str "fo!", ¬ Allowed b) ∧
    scdHasWord (some (dictionary [str "the", str "fox"])) (some (str "fo!")) = some 0 :=
  ⟨reachable_dictionary _, by decide!,
    malformed_lookup_false _ (reachable_dictionary _) _ (by decide!)⟩

/-- C17 (tokenizer output contract). For every text the tokens of the strtok loop are
non-empty, hold no delimiter byte and are contiguous pieces of the text; their
concatenation is the text with the delimiter bytes removed; and on the empty
dictionary the spell check reports exactly this list. -/
theorem tokenizer_contract (text : List Byte) (callback : SpellCheckerCallback) :
    (∀ t ∈ scrTokens text, t ≠ [] ∧ (∀ b ∈ t, b ∉ delimiters) ∧ t <:+: text) ∧
    (scrTokens text).flatten = text.filter (fun b => decide (b ∉ delimiters)) ∧
    scrDoSpellCheck scdInit ⟨text, callback⟩ = .ok (0, scrTokens text) := by
  rw [scrTokens_eq]
  obtain ⟨hall, hflat⟩ := tokens_contract delimiters text
  refine ⟨hall, hflat, ?_⟩
  rw [scrDoSpellCheck_eq scdInit (fun w => scdHasWord_total _
    (fun s h => by rw [scdInit_eq] at h; cases h; exact sound_callocChildren 0) w)]
  have hfilter : (tokens delimiters text).filter
      (fun t => decide (scdHasWord scdInit (some t) = some 0)) = tokens delimiters text := by
    rw [List.filter_eq_self]
    intro t ht
    simp [scdHasWord_empty_store t (hall t ht).1]
  simp only [hfilter]

/-- C18 (trie well-formedness). In a reachable store the root has `chr = 0` and a child
table, and in every struct with a child table that is found from the root
through child tables, a slot with a non-zero `chr` holds its own index, which is
a normalised allowed byte, and has a child table, while a slot with `chr = 0`
has none. -/
theorem trie_well_formed (s : SpellCheckerData) (hs : Reachable s) :
    s.chr = 0 ∧ s.hasChild = true ∧
    ∀ (path : List (Fin 256)) (c : Byte) (child : Fin 256 → SpellCheckerData),
      slotAt s path = some (node c child) →
      ∀ b : Fin 256,
        ((child b).chr ≠ 0 →
          (child b).chr = b ∧ NormAllowed b ∧ ¬ (0x41 ≤ b ∧ b ≤ 0x5A) ∧
            (child b).hasChild = true) ∧
        ((child b).chr = 0 → (child b).hasChild = false) := by
  obtain ⟨child0, rfl, _⟩ := reachable_node hs
  refine ⟨rfl, rfl, ?_⟩
  intro path c child hslot b
  have hinv := trieInv_slotAt path _ c child (reachable_trieInv hs) hslot
  obtain ⟨hnz, hz⟩ := (hinv b).1
  refine ⟨fun hne => ?_, hz⟩
  obtain ⟨h1, h2, h3⟩ := hnz hne
  exact ⟨h1, h2, normAllowed_not_upper b h2, h3⟩

/-- Witness of C18: the dictionary holding "The" and "fox". -/
theorem trie_well_formed_witness :
    Reachable (dictionary [str "The", str "fox"]) ∧
    (dictionary [str "The", str "fox"]).chr = 0 ∧
    (dictionary [str "The", str "fox"]).hasChild = true ∧
    ∀ (path : List (Fin 256)) (c : Byte) (child : Fin 256 → SpellCheckerData),
      slotAt (dictionary [str "The", str "fox"]) path = some (node c child) →
      ∀ b : Fin 256,
        ((child b).chr ≠ 0 →
          (child b).chr = b ∧ NormAllowed b ∧ ¬ (0x41 ≤ b ∧ b ≤ 0x5A) ∧
            (child b).hasChild = true) ∧
        ((child b).chr = 0 → (child b).hasChild = false) :=
  ⟨reachable_dictionary _, trie_well_formed _ (reachable_dictionary _)⟩

/-- C19 (the empty word). On every store with a child table `scdAddWord` of the empty
word returns 0 and the store after the call is the store before it. -/
theorem empty_word_added (s : SpellCheckerData) (hs : s.hasChild = true) :
    scdAddWord (some s) (some []) = some (0, some s) := by
  cases s with
  | leaf c => simp [SpellCheckerData.hasChild] at hs
  | node chr child => simp [scdAddWord, scdIsValid, scdAddWordFind]

/-- Witness of C19: the empty word on the dictionary holding "the". -/
theorem empty_word_added_witness :
    (dictionary [str "the"]).hasChild = true ∧
    scdAddWord (some (dictionary [str "the"])) (some []) =
      some (0, some (dictionary [str "the"])) :=
  ⟨by decide!, empty_word_added _ (by decide!)⟩

/-! ## The message queue as a linked list -/

theorem chain_congr {heap heap' : Nat → Option ScrMsg} (cs : List (Nat × ScrMsg)) :
    ∀ p, (∀ c ∈ cs, heap' c.1 = heap c.1) → Chain heap p cs → Chain heap' p cs := by
  induction cs with
  | nil => intro p _ h; exact h
  | cons c cs ih =>
    intro p hagree h
    obtain ⟨h1, h2, h3⟩ := h
    exact ⟨h1, by rw [hagree c (List.mem_cons_self _ _)]; exact h2,
      ih _ (fun d hd => hagree d (List.mem_cons_of_mem _ hd)) h3⟩

theorem chain_last {heap : Nat → Option ScrMsg} (cs : List (Nat × ScrMsg)) (c : Nat × ScrMsg) :
    ∀ p, Chain heap p (cs ++ [c]) → heap c.1 = some c.2 ∧ c.2.next = none := by
  induction cs with
  | nil =>
    intro p h
    obtain ⟨_, h2, h3⟩ := h
    exact ⟨h2, h3⟩
  | cons d cs ih =>
    intro p h
    obtain ⟨_, _, h3⟩ := h
    exact ih _ h3

theorem chain_snoc_replace {heap heap' : Nat → Option ScrMsg} (cs : List (Nat × ScrMsg))
    (a : Nat) (c c' : ScrMsg) (rest : List (Nat × ScrMsg)) :
    ∀ p, Chain heap p (cs ++ [(a, c)]) → (∀ x ∈ cs, heap' x.1 = heap x.1) →
      heap' a = some c' → Chain heap' c'.next rest →
      Chain heap' p (cs ++ (a, c') :: rest) := by
  induction cs with
  | nil =>
    intro p h _ ha hrest
    obtain ⟨h1, _, _⟩ := h
    exact ⟨h1, ha, hrest⟩
  | cons d cs ih =>
    intro p h hagree ha hrest
    obtain ⟨h1, h2, h3⟩ := h
    exact ⟨h1, by rw [hagree d (List.mem_cons_self _ _)]; exact h2,
      ih _ h3 (fun x hx => hagree x (List.mem_cons_of_mem _ hx)) ha hrest⟩

theorem chain_head_some {heap : Nat → Option ScrMsg} {head : Nat} {msg : ScrMsg}
    {cs : List (Nat × ScrMsg)} (h : Chain heap (some head) cs) (hmsg : heap head = some msg) :
    ∃ rest, cs = (head, msg) :: rest ∧ Chain heap msg.next rest := by
  cases cs with
  | nil => exact absurd h (by simp [Chain])
  | cons c rest =>
    obtain ⟨h1, h2, h3⟩ := h
    have hc1 : c.1 = head := (Option.some.inj h1).symm
    have hc2 : c.2 = msg := by
      rw [hc1, hmsg] at h2
      exact (Option.some.inj h2).symm
    refine ⟨rest, ?_, by rw [← hc2]; exact h3⟩
    rw [← hc1, ← hc2]

theorem queueInv_nil_head {r : SpellCheckerRunner} (h : QueueInv r []) :
    r.csrMsgHead = none := by
  obtain ⟨cs, hchain, _, _, _, hq⟩ := h
  cases cs with
  | nil => exact hchain
  | cons c cs => simp at hq

theorem queueInv_head {r : SpellCheckerRunner} {m : ScrMsgType × ScrArg}
    {q : List (ScrMsgType × ScrArg)} (h : QueueInv r (m :: q)) :
    ∃ head msg, r.csrMsgHead = some head ∧ r.heap head = some msg ∧
      (msg.type, msg.arg) = m := by
  obtain ⟨cs, hchain, _, _, _, hq⟩ := h
  cases cs with
  | nil => simp at hq
  | cons c cs =>
    obtain ⟨h1, h2, _⟩ := hchain
    simp only [List.map_cons, List.cons.injEq] at hq
    exact ⟨c.1, c.2, h1, h2, hq.1.symm⟩

theorem queueInv_pop {r : SpellCheckerRunner} {q : List (ScrMsgType × ScrArg)}
    {head : Nat} {msg : ScrMsg} (h : QueueInv r q) (hhead : r.csrMsgHead = some head)
    (hmsg : r.heap head = some msg) :
    ∃ q', q = (msg.type, msg.arg) :: q' ∧
      ∀ r1 : SpellCheckerRunner, r1.heap = r.heap → r1.brk = r.brk →
        r1.csrMsgTail = r.csrMsgTail →
        QueueInv { r1 with heap := Function.update r1.heap head none
                           csrMsgHead := msg.next } q' := by
  obtain ⟨cs, hchain, hnodup, hlt, htail, hq⟩ := h
  rw [hhead] at hchain
  obtain ⟨rest, rfl, hrest⟩ := chain_head_some hchain hmsg
  refine ⟨rest.map (fun c => (c.2.type, c.2.arg)), by simpa using hq, ?_⟩
  intro r1 hheap hbrk htl
  simp only [List.map_cons, List.nodup_cons] at hnodup
  refine ⟨rest, ?_, hnodup.2, ?_, ?_, rfl⟩
  · apply chain_congr rest _ _ hrest
    intro c hc
    have hne : c.1 ≠ head := by
      intro heq
      exact hnodup.1 (heq ▸ List.mem_map_of_mem Prod.fst hc)
    simp [hheap, Function.update_noteq hne]
  · intro c hc
    simpa [hbrk] using hlt c (List.mem_cons_of_mem _ hc)
  · intro c hc
    have : ((head, msg) :: rest).getLast? = some c := by
      cases rest with
      | nil => simp at hc
      | cons d ds => simpa [List.getLast?_cons_cons] using hc
    simpa [htl] using htail c this

theorem csrPushMsg_queueInv {r : SpellCheckerRunner} {q : List (ScrMsgType × ScrArg)}
    (h : QueueInv r q) (type : ScrMsgType) (arg : ScrArg) :
    ∃ r', csrPushMsg r type arg = .ok r' ∧ QueueInv r' (q ++ [(type, arg)]) ∧
      r'.data = r.data ∧ r'.calls = r.calls ∧ r'.isRunning = r.isRunning ∧
      r'.brk = r.brk + 1 := by
  obtain ⟨cs, hchain, hnodup, hlt, htail, rfl⟩ := h
  rcases List.eq_nil_or_concat cs with rfl | ⟨init, last, hcs⟩
  · have hhead : r.csrMsgHead = none := hchain
    refine ⟨{ r with
              heap := Function.update r.heap r.brk (some ⟨type, arg, none⟩)
              brk := r.brk + 1
              csrMsgHead := some r.brk
              csrMsgTail := some r.brk },
      by simp [csrPushMsg, hhead, createScrMsg], ?_, rfl, rfl, rfl, rfl⟩
    refine ⟨[(r.brk, ⟨type, arg, none⟩)], ?_, by simp, by simp, by simp, by simp⟩
    exact ⟨rfl, by simp, rfl⟩
  · rw [List.concat_eq_append] at hcs
    subst hcs
    obtain ⟨t, tc⟩ := last
    obtain ⟨hheapt, hnext⟩ := chain_last init (t, tc) _ hchain
    simp only at hheapt hnext
    have htl : r.csrMsgTail = some t := htail (t, tc) (by simp)
    have hhead : ∃ h0, r.csrMsgHead = some h0 := by
      cases init with
      | nil => exact ⟨t, hchain.1⟩
      | cons d ds => exact ⟨d.1, hchain.1⟩
    obtain ⟨h0, hh0⟩ := hhead
    have htlt : t < r.brk := hlt (t, tc) (by simp)
    have hne : r.brk ≠ t := by omega
    refine ⟨{ r with
              heap := Function.update
                (Function.update r.heap r.brk (some ⟨type, arg, none⟩)) t
                (some { tc with next := some r.brk })
              brk := r.brk + 1
              csrMsgTail := some r.brk },
      by simp [csrPushMsg, hh0, htl, hheapt, hnext, createScrMsg], ?_, rfl, rfl, rfl, rfl⟩
    refine ⟨init ++ [(t, { tc with next := some r.brk }), (r.brk, ⟨type, arg, none⟩)],
      ?_, ?_, ?_, ?_, by simp⟩
    · apply chain_snoc_replace init t tc _ _ _ hchain
      · intro x hx
        have hxt : x.1 ≠ t := by
          intro heq
          simp only [List.map_append, List.map_cons, List.map_nil] at hnodup
          have := (List.nodup_append.mp hnodup).2.2
          exact this (List.mem_map_of_mem Prod.fst hx) (by simp [heq])
        have hxb : x.1 ≠ r.brk := by
          have := hlt x (by simp [hx])
          omega
        simp [Function.update_noteq hxt, Function.update_noteq hxb]
      · simp
      · exact ⟨rfl, by simp [Function.update_noteq hne], rfl⟩
    · simp only [List.map_append, List.map_cons, List.map_nil] at hnodup ⊢
      have hinit := (List.nodup_append.mp hnodup).1
      have hdisj := (List.nodup_append.mp hnodup).2.2
      rw [List.nodup_append]
      refine ⟨hinit, by simp; omega, ?_⟩
      intro a ha1 ha2
      simp only [List.mem_cons, List.mem_singleton, List.not_mem_nil, or_false] at ha2
      rcases ha2 with rfl | rfl
      · exact hdisj ha1 (by simp)
      · obtain ⟨x, hx, hxa⟩ := List.mem_map.mp ha1
        have := hlt x (by simp [hx])
        omega
    · intro c hc
      simp only [List.mem_append, List.mem_cons, List.mem_singleton, List.not_mem_nil,
        or_false] at hc
      rcases hc with hc | rfl | rfl
      · have := hlt c (by simp [hc])
        simp only
        omega
      · simp only
        omega
      · simp
    · intro c hc
      have : c = (r.brk, ⟨type, arg, none⟩) := by
        have h2 : (init ++ [(t, { tc with next := some r.brk }),
            (r.brk, (⟨type, arg, none⟩ : ScrMsg))]).getLast? =
            some (r.brk, ⟨type, arg, none⟩) := by
          rw [List.getLast?_append]
          simp
        rw [h2] at hc
        exact (Option.some.inj hc).symm
      rw [this]

theorem initialRunner_eq :
    scrInit = some initialRunner := rfl

theorem queueInv_initialRunner : QueueInv initialRunner [] :=
  ⟨[], rfl, by simp, by simp, by simp, rfl⟩

theorem enqueue_cons (r : SpellCheckerRunner) (m : ScrMsgType × ScrArg)
    (ms : List (ScrMsgType × ScrArg)) (r' : SpellCheckerRunner)
    (h : csrPushMsg r m.1 m.2 = .ok r') : enqueue r (m :: ms) = enqueue r' ms := by
  simp [enqueue, h]

theorem queueInv_enqueue (ms : List (ScrMsgType × ScrArg)) :
    ∀ (r : SpellCheckerRunner) (q : List (ScrMsgType × ScrArg)), QueueInv r q →
      QueueInv (enqueue r ms) (q ++ ms) ∧ (enqueue r ms).data = r.data ∧
      (enqueue r ms).calls = r.calls ∧ (enqueue r ms).isRunning = r.isRunning := by
  induction ms with
  | nil => intro r q h; simpa [enqueue] using h
  | cons m ms ih =>
    intro r q h
    obtain ⟨r', hpush, hinv, hd, hc, hi, _⟩ := csrPushMsg_queueInv h m.1 m.2
    rw [enqueue_cons r m ms r' hpush]
    obtain ⟨h1, h2, h3, h4⟩ := ih r' _ hinv
    refine ⟨by simpa using h1, h2.trans hd, h3.trans hc, h4.trans hi⟩

theorem runnerReachable_enqueue (ms : List (ScrMsgType × ScrArg)) :
    ∀ (r : SpellCheckerRunner) (pushed executed q : List (ScrMsgType × ScrArg)),
      RunnerReachable r pushed executed → QueueInv r q →
      RunnerReachable (enqueue r ms) (pushed ++ ms) executed := by
  induction ms with
  | nil => intro r pushed executed q h _; simpa [enqueue] using h
  | cons m ms ih =>
    intro r pushed executed q h hq
    obtain ⟨r', hpush, hinv, _⟩ := csrPushMsg_queueInv hq m.1 m.2
    rw [enqueue_cons r m ms r' hpush]
    have := ih r' _ executed _ (RunnerReachable.push h hpush) hinv
    simpa using this

/-! ## The worker loop on a well-formed queue -/

theorem thread_runner_switch_frame {r r1 : SpellCheckerRunner} {msg : ScrMsg}
    (h : thread_runner_switch r msg = .ok r1) :
    r1.heap = r.heap ∧ r1.brk = r.brk ∧ r1.csrMsgHead = r.csrMsgHead ∧
      r1.csrMsgTail = r.csrMsgTail := by
  unfold thread_runner_switch at h
  split at h
  · simp at h
  · split at h
    · simp at h
    · simp only [Except.ok.injEq] at h; subst h; exact ⟨rfl, rfl, rfl, rfl⟩
  · split at h
    · simp at h
    · simp only [Except.ok.injEq] at h; subst h; exact ⟨rfl, rfl, rfl, rfl⟩
  · split at h
    · simp at h
    · simp only [Except.ok.injEq] at h; subst h; exact ⟨rfl, rfl, rfl, rfl⟩
  · simp at h
  · simp only [Except.ok.injEq] at h; subst h; exact ⟨rfl, rfl, rfl, rfl⟩

theorem thread_runner_body_eq {r : SpellCheckerRunner} {head : Nat} {msg : ScrMsg}
    (hhead : r.csrMsgHead = some head) (hmsg : r.heap head = some msg) :
    thread_runner_body r =
      match thread_runner_switch r msg with
      | .error e => .error e
      | .ok r1 =>
        .ok (1, { r1 with heap := Function.update r1.heap head none, csrMsgHead := msg.next }) := by
  simp [thread_runner_body, hhead, hmsg]

theorem thread_runner_loop_stop (fuel : Nat) (handled : Int) (r : SpellCheckerRunner)
    (h : r.isRunning = 0) : thread_runner_loop fuel handled r = .ok r := by
  cases fuel <;> simp [thread_runner_loop, h]

theorem thread_runner_loop_step (fuel : Nat) {r r' : SpellCheckerRunner} {handled : Int}
    (hrun : r.isRunning ≠ 0) (hbody : thread_runner_body r = .ok (handled, r')) :
    thread_runner_loop (fuel + 1) 1 r = thread_runner_loop fuel handled r' := by
  rw [thread_runner_loop]
  simp [hrun, hbody]

theorem runnerReachable_queueInv {r : SpellCheckerRunner}
    {pushed executed : List (ScrMsgType × ScrArg)} (h : RunnerReachable r pushed executed) :
    ∃ q, QueueInv r q ∧ pushed = executed ++ q := by
  induction h with
  | init h0 =>
    rw [initialRunner_eq] at h0
    cases h0
    exact ⟨[], queueInv_initialRunner, rfl⟩
  | @push r r' pushed executed type arg _ hpush ih =>
    obtain ⟨q, hq, hpe⟩ := ih
    obtain ⟨r'', hpush', hinv, _⟩ := csrPushMsg_queueInv hq type arg
    rw [hpush] at hpush'
    cases hpush'
    exact ⟨q ++ [(type, arg)], hinv, by rw [hpe, List.append_assoc]⟩
  | @work r r' pushed executed head msg handled _ _ hhead hmsg hbody ih =>
    obtain ⟨q, hq, hpe⟩ := ih
    obtain ⟨q', rfl, hpop⟩ := queueInv_pop hq hhead hmsg
    rw [thread_runner_body_eq hhead hmsg] at hbody
    cases hsw : thread_runner_switch r msg with
    | error e => simp [hsw] at hbody
    | ok r1 =>
      simp only [hsw, Except.ok.injEq, Prod.mk.injEq] at hbody
      obtain ⟨hf1, hf2, _, hf4⟩ := thread_runner_switch_frame hsw
      refine ⟨q', ?_, by rw [hpe]; simp⟩
      rw [← hbody.2]
      exact hpop r1 hf1 hf2 hf4

/-! ## Adding never removes a word -/

theorem scdAddWordFind_mono (w : List Byte) :
    ∀ (nd s : SpellCheckerData) (x : List Byte), scdAddWordFind nd w = some s →
      scdHasWordLoop nd x = some 1 → scdHasWordLoop s x = some 1 := by
  induction w with
  | nil => intro nd s x hs h; simp [scdAddWordFind] at hs; subst hs; exact h
  | cons c rest ih =>
    intro nd s x hs h
    cases nd with
    | leaf c0 => simp [scdAddWordFind] at hs
    | node chr child =>
      cases x with
      | nil => simp [scdHasWordLoop]
      | cons d xs =>
        by_cases hd0 : 0 = (child (scdNormalizeChar d)).chr
        · simp [scdHasWordLoop, hd0.symm] at h
        · simp only [scdHasWordLoop, hd0, if_false] at h
          by_cases hk : 0 = (child (scdNormalizeChar c)).chr
          · have hs' : scdAddWordCreate (node chr child) (c :: rest) = some s := by
              simpa [scdAddWordFind, hk.symm] using hs
            obtain ⟨sub, hsub⟩ := scdAddWordCreate_node rest (scdNormalizeChar c) callocChildren
            simp [scdAddWordCreate, scdInitNode, hsub] at hs'
            subst hs'
            have hne : scdNormalizeChar d ≠ scdNormalizeChar c := by
              intro heq
              rw [heq] at hd0
              exact hd0 hk
            simp [scdHasWordLoop, Function.update_noteq hne, hd0, h]
          · simp only [scdAddWordFind, ne_eq, hk, not_false_eq_true, if_true] at hs
            cases hf : scdAddWordFind (child (scdNormalizeChar c)) rest with
            | none => simp [hf] at hs
            | some sub =>
              simp [hf] at hs; subst hs
              by_cases hdk : scdNormalizeChar d = scdNormalizeChar c
              · have hchr := scdAddWordFind_chr _ _ _ hf
                have hsub := ih _ _ xs hf (by rw [← hdk]; exact h)
                have hk' : ¬ 0 = sub.chr := by rw [hchr]; exact hk
                simp only [scdHasWordLoop]
                rw [hdk, Function.update_same]
                simp [hk', hsub]
              · simp [scdHasWordLoop, Function.update_noteq hdk, hd0, h]

theorem scdAddWordFind_node (w : List Byte) (chr : Byte) (child : Fin 256 → SpellCheckerData)
    (s : SpellCheckerData) (h : scdAddWordFind (node chr child) w = some s) :
    ∃ child', s = node chr child' := by
  cases w with
  | nil => simp [scdAddWordFind] at h; exact ⟨child, h.symm⟩
  | cons c rest =>
    by_cases hk : 0 = (child (scdNormalizeChar c)).chr
    · obtain ⟨child', hc⟩ := scdAddWordCreate_node (c :: rest) chr child
      have hs' : scdAddWordCreate (node chr child) (c :: rest) = some s := by
        simpa [scdAddWordFind, hk.symm] using h
      rw [hc] at hs'
      exact ⟨child', (Option.some.inj hs').symm⟩
    · simp only [scdAddWordFind, ne_eq, hk, not_false_eq_true, if_true] at h
      cases hf : scdAddWordFind (child (scdNormalizeChar c)) rest with
      | none => simp [hf] at h
      | some sub => simp [hf] at h; exact ⟨_, h.symm⟩

theorem scdAddWord_mono {s s' : SpellCheckerData} {word : Option (List Byte)} {ret : Int}
    (x : List Byte) (hadd : scdAddWord (some s) word = some (ret, some s'))
    (h : scdHasWord (some s) (some x) = some 1) :
    scdHasWord (some s') (some x) = some 1 := by
  cases s with
  | leaf c => simp [scdHasWord] at h
  | node chr child =>
    cases word with
    | none => simp [scdAddWord] at hadd; rw [← hadd.2]; exact h
    | some w =>
      by_cases hv : scdIsValid w = 0
      · simp [scdAddWord, hv] at hadd; rw [← hadd.2]; exact h
      · simp only [scdAddWord, hv, if_false] at hadd
        cases hf : scdAddWordFind (node chr child) w with
        | none => simp [hf] at hadd
        | some s1 =>
          simp [hf] at hadd
          rw [← hadd.2]
          have hloop : scdHasWordLoop (node chr child) x = some 1 := by
            simpa [scdHasWord] using h
          have hmono := scdAddWordFind_mono w _ _ x hf hloop
          obtain ⟨child1, rfl⟩ := scdAddWordFind_node w chr child s1 hf
          simpa [scdHasWord] using hmono

theorem addWords_hasWord (ws : List (List Byte)) :
    ∀ (s s' : SpellCheckerData), Reachable s → addWords (some s) ws = some s' →
      (∀ w ∈ ws, ∀ b ∈ w, Allowed b) →
      Reachable s' ∧ (∀ x, scdHasWord (some s) (some x) = some 1 →
        scdHasWord (some s') (some x) = some 1) ∧
      ∀ w ∈ ws, scdHasWord (some s') (some w) = some 1 := by
  induction ws with
  | nil =>
    intro s s' hs h _
    simp [addWords] at h
    subst h
    exact ⟨hs, fun _ hx => hx, by simp⟩
  | cons w ws ih =>
    intro s s' hs h hvalid
    obtain ⟨s1, hadd, _, hhas, child1, rfl⟩ :=
      scdAddWord_valid hs (hvalid w (List.mem_cons_self _ _))
    simp only [addWords, hadd] at h
    obtain ⟨hr, hmono, hall⟩ := ih _ s' (Reachable.add hs hadd) h
      (fun v hv => hvalid v (List.mem_cons_of_mem _ hv))
    refine ⟨hr, fun x hx => hmono x (scdAddWord_mono x hadd hx), ?_⟩
    intro v hv
    rcases List.mem_cons.mp hv with rfl | hv'
    · exact hmono _ (by simpa [scdHasWord] using hhas)
    · exact hall v hv'

/-! ## Runs of the worker -/

theorem thread_runner_finalize_step {r : SpellCheckerRunner} {a : ScrArg}
    {rest : List (ScrMsgType × ScrArg)}
    (hq : QueueInv r ((.SCR_MSG_FINALIZE, a) :: rest)) :
    ∃ r', thread_runner_body r = .ok (1, r') ∧ r'.isRunning = 0 ∧ r'.data = r.data ∧
      r'.calls = r.calls ∧ QueueInv r' rest := by
  obtain ⟨head, msg, hhead, hmsg, hm⟩ := queueInv_head hq
  simp only [Prod.mk.injEq] at hm
  have hsw : thread_runner_switch r msg = .ok { r with isRunning := 0 } := by
    simp [thread_runner_switch, hm.1]
  obtain ⟨q', hq', hpop⟩ := queueInv_pop hq hhead hmsg
  simp only [List.cons.injEq] at hq'
  refine ⟨{ r with isRunning := 0, heap := Function.update r.heap head none,
                   csrMsgHead := msg.next },
    by rw [thread_runner_body_eq hhead hmsg, hsw], rfl, rfl, rfl, ?_⟩
  rw [hq'.2]
  exact hpop { r with isRunning := 0 } rfl rfl rfl

theorem thread_runner_add_step {r : SpellCheckerRunner} {w : List Byte}
    {q : List (ScrMsgType × ScrArg)} {s : SpellCheckerData}
    (hq : QueueInv r ((.SCR_MSG_ADD, .word w) :: q)) (hdata : r.data = some s)
    (hs : Reachable s) (hw : ∀ b ∈ w, Allowed b) :
    ∃ r' s', thread_runner_body r = .ok (1, r') ∧ r'.isRunning = r.isRunning ∧
      r'.data = some s' ∧ scdAddWord (some s) (some w) = some (0, some s') ∧
      r'.calls = r.calls ∧ QueueInv r' q := by
  obtain ⟨head, msg, hhead, hmsg, hm⟩ := queueInv_head hq
  simp only [Prod.mk.injEq] at hm
  obtain ⟨s', hadd, _⟩ := scdAddWord_valid hs hw
  have hsw : thread_runner_switch r msg = .ok { r with data := some s' } := by
    simp [thread_runner_switch, hm.1, hm.2, hdata, hadd]
  obtain ⟨q', hq', hpop⟩ := queueInv_pop hq hhead hmsg
  simp only [List.cons.injEq] at hq'
  refine ⟨{ r with data := some s', heap := Function.update r.heap head none,
                   csrMsgHead := msg.next },
    s', by rw [thread_runner_body_eq hhead hmsg, hsw], rfl, rfl, hadd, rfl, ?_⟩
  rw [hq'.2]
  exact hpop { r with data := some s' } rfl rfl rfl

theorem thread_runner_loop_adds (ws : List (List Byte)) :
    ∀ (r : SpellCheckerRunner) (s : SpellCheckerData) (q : List (ScrMsgType × ScrArg)),
      QueueInv r (ws.map (fun w => (ScrMsgType.SCR_MSG_ADD, ScrArg.word w)) ++ q) →
      r.isRunning ≠ 0 → r.data = some s → Reachable s →
      (∀ w ∈ ws, ∀ b ∈ w, Allowed b) →
      ∃ r' s', (∀ fuel, thread_runner_loop (ws.length + fuel) 1 r =
          thread_runner_loop fuel 1 r') ∧
        QueueInv r' q ∧ r'.isRunning = r.isRunning ∧ r'.calls = r.calls ∧
        r'.data = some s' ∧ addWords (some s) ws = some s' := by
  induction ws with
  | nil =>
    intro r s q hq _ hdata _ _
    exact ⟨r, s, fun fuel => by simp, by simpa using hq, rfl, rfl, hdata, rfl⟩
  | cons w ws ih =>
    intro r s q hq hrun hdata hs hvalid
    obtain ⟨r1, s1, hbody, hrun1, hdata1, hadd, hcalls1, hq1⟩ :=
      thread_runner_add_step (by simpa using hq) hdata hs (hvalid w (List.mem_cons_self _ _))
    obtain ⟨r', s', hloop, hq', hrun', hcalls', hdata', hwords⟩ :=
      ih r1 s1 q hq1 (by rw [hrun1]; exact hrun) hdata1 (Reachable.add hs hadd)
        (fun v hv => hvalid v (List.mem_cons_of_mem _ hv))
    refine ⟨r', s', ?_, hq', hrun'.trans hrun1, hcalls'.trans hcalls1, hdata', ?_⟩
    · intro fuel
      have : (w :: ws).length + fuel = (ws.length + fuel) + 1 := by
        simp only [List.length_cons]; omega
      rw [this, thread_runner_loop_step _ hrun hbody, hloop fuel]
    · simp [addWords, hadd, hwords]

theorem queueInv_tail {r : SpellCheckerRunner} {q : List (ScrMsgType × ScrArg)}
    (h : QueueInv r q) (hhead : r.csrMsgHead ≠ none) :
    ∃ t tm, r.csrMsgTail = some t ∧ r.heap t = some tm ∧ tm.next = none := by
  obtain ⟨cs, hchain, _, _, htail, _⟩ := h
  rcases List.eq_nil_or_concat cs with rfl | ⟨init, last, hcs⟩
  · exact absurd hchain hhead
  · rw [List.concat_eq_append] at hcs
    subst hcs
    obtain ⟨h1, h2⟩ := chain_last init last _ hchain
    exact ⟨last.1, last.2, htail last (by simp), h1, h2⟩

theorem runnerReachable_initialRunner : RunnerReachable initialRunner [] [] :=
  RunnerReachable.init initialRunner_eq

theorem runnerReachable_workerPass {r : SpellCheckerRunner}
    {pushed executed q : List (ScrMsgType × ScrArg)} {m : ScrMsgType × ScrArg}
    (h : RunnerReachable r pushed executed) (hrun : r.isRunning ≠ 0)
    (hq : QueueInv r (m :: q)) (hok : (thread_runner_body r).toOption.isSome = true) :
    RunnerReachable (workerPass r) pushed (executed ++ [m]) := by
  obtain ⟨head, msg, hhead, hmsg, hm⟩ := queueInv_head hq
  cases hbody : thread_runner_body r with
  | error e => simp [hbody, Except.toOption] at hok
  | ok x =>
    have hpass : workerPass r = x.2 := by simp [workerPass, hbody]
    rw [hpass, ← hm]
    exact RunnerReachable.work h hrun hhead hmsg hbody

/-- C11 (FIFO order). In every state reachable from `scrInit` by pushes and passes of the
worker loop, the messages the worker has handled are an initial segment of the
messages pushed, and the rest of the pushed messages is what the queue holds,
in the same order. -/
theorem fifo_order (r : SpellCheckerRunner) (pushed executed : List (ScrMsgType × ScrArg))
    (h : RunnerReachable r pushed executed) :
    executed <+: pushed ∧ ∃ pending, pushed = executed ++ pending ∧ QueueInv r pending := by
  obtain ⟨q, hq, hpe⟩ := runnerReachable_queueInv h
  exact ⟨⟨q, hpe.symm⟩, q, hpe, hq⟩

/-- Witness of C11: three messages are pushed on the initial runner and the worker
has made one pass. -/
theorem fifo_order_witness :
    RunnerReachable
      (workerPass (enqueue initialRunner
        [(.SCR_MSG_ADD, .word (str "the")), (.SCR_MSG_SPELL_CHECK, .spellCheck ⟨str "fox", 7⟩),
         (.SCR_MSG_FINALIZE, .null)]))
      ([] ++ [(.SCR_MSG_ADD, .word (str "the")),
        (.SCR_MSG_SPELL_CHECK, .spellCheck ⟨str "fox", 7⟩), (.SCR_MSG_FINALIZE, .null)])
      ([] ++ [(.SCR_MSG_ADD, .word (str "the"))]) ∧
    ([] ++ [(ScrMsgType.SCR_MSG_ADD, ScrArg.word (str "the"))] <+:
      [] ++ [(.SCR_MSG_ADD, .word (str "the")),
        (.SCR_MSG_SPELL_CHECK, .spellCheck ⟨str "fox", 7⟩), (.SCR_MSG_FINALIZE, .null)]) ∧
    ∃ pending,
      [] ++ [(.SCR_MSG_ADD, .word (str "the")),
        (.SCR_MSG_SPELL_CHECK, .spellCheck ⟨str "fox", 7⟩), (.SCR_MSG_FINALIZE, .null)] =
        ([] ++ [(ScrMsgType.SCR_MSG_ADD, ScrArg.word (str "the"))]) ++ pending ∧
      QueueInv
        (workerPass (enqueue initialRunner
          [(.SCR_MSG_ADD, .word (str "the")),
           (.SCR_MSG_SPELL_CHECK, .spellCheck ⟨str "fox", 7⟩), (.SCR_MSG_FINALIZE, .null)]))
        pending :=
  have hreach := runnerReachable_workerPass
    (runnerReachable_enqueue _ _ _ _ _ runnerReachable_initialRunner queueInv_initialRunner)
    (by decide!) (queueInv_enqueue _ _ _ queueInv_initialRunner).1 (by decide!)
  ⟨hreach, fifo_order _ _ _ hreach⟩

/-- C16 (exactly one shutdown). When the shutdown message is at the head of a well-formed
queue and the runner is running, the pass of the worker loop that handles it
sets `isRunning` to 0, unlinks that message and leaves store and calls as they
were; the thread returns in that state, and from it the loop makes no further
pass, so the messages behind the shutdown stay in the queue unhandled. -/
theorem shutdown_stops_worker (r : SpellCheckerRunner) (a : ScrArg)
    (rest : List (ScrMsgType × ScrArg))
    (hq : QueueInv r ((.SCR_MSG_FINALIZE, a) :: rest)) (hrun : r.isRunning ≠ 0) :
    ∃ r', thread_runner_body r = .ok (1, r') ∧
      (∀ fuel, thread_runner (fuel + 1) r = .ok r') ∧
      r'.isRunning = 0 ∧ r'.data = r.data ∧ r'.calls = r.calls ∧ QueueInv r' rest ∧
      ∀ fuel handled, thread_runner_loop fuel handled r' = .ok r' := by
  obtain ⟨r', hbody, hstop, hdata, hcalls, hq'⟩ := thread_runner_finalize_step hq
  refine ⟨r', hbody, ?_, hstop, hdata, hcalls, hq', ?_⟩
  · intro fuel
    rw [thread_runner, thread_runner_loop_step fuel hrun hbody]
    exact thread_runner_loop_stop _ _ _ hstop
  · intro fuel handled
    exact thread_runner_loop_stop _ _ _ hstop

/-- Witness of C16: a shutdown followed by an AddWord and a second shutdown on the
initial runner. -/
theorem shutdown_stops_worker_witness :
    QueueInv
      (enqueue initialRunner
        [(.SCR_MSG_FINALIZE, .null), (.SCR_MSG_ADD, .word (str "the")),
         (.SCR_MSG_FINALIZE, .null)])
      ((.SCR_MSG_FINALIZE, .null) ::
        [(.SCR_MSG_ADD, .word (str "the")), (.SCR_MSG_FINALIZE, .null)]) ∧
    (enqueue initialRunner
        [(.SCR_MSG_FINALIZE, .null), (.SCR_MSG_ADD, .word (str "the")),
         (.SCR_MSG_FINALIZE, .null)]).isRunning ≠ 0 ∧
    ∃ r', thread_runner_body (enqueue initialRunner
        [(.SCR_MSG_FINALIZE, .null), (.SCR_MSG_ADD, .word (str "the")),
         (.SCR_MSG_FINALIZE, .null)]) = .ok (1, r') ∧
      (∀ fuel, thread_runner (fuel + 1) (enqueue initialRunner
        [(.SCR_MSG_FINALIZE, .null), (.SCR_MSG_ADD, .word (str "the")),
         (.SCR_MSG_FINALIZE, .null)]) = .ok r') ∧
      r'.isRunning = 0 ∧
      r'.data = (enqueue initialRunner
        [(.SCR_MSG_FINALIZE, .null), (.SCR_MSG_ADD, .word (str "the")),
         (.SCR_MSG_FINALIZE, .null)]).data ∧
      r'.calls = (enqueue initialRunner
        [(.SCR_MSG_FINALIZE, .null), (.SCR_MSG_ADD, .word (str "the")),
         (.SCR_MSG_FINALIZE, .null)]).calls ∧
      QueueInv r' [(.SCR_MSG_ADD, .word (str "the")), (.SCR_MSG_FINALIZE, .null)] ∧
      ∀ fuel handled, thread_runner_loop fuel handled r' = .ok r' :=
  ⟨(queueInv_enqueue _ _ _ queueInv_initialRunner).1, by decide!,
    shutdown_stops_worker _ _ _ (queueInv_enqueue _ _ _ queueInv_initialRunner).1
      (by decide!)⟩

/-- C20 (the queue-corruption branch is unreachable). In every state reachable from
`scrInit` by pushes and passes of the worker loop, a non-NULL head comes with a
tail that points to an allocated cell whose `next` is NULL, and a push succeeds,
allocates one cell and leaves the queue with the new message appended at its
end. -/
theorem queue_never_corrupt (r : SpellCheckerRunner)
    (pushed executed : List (ScrMsgType × ScrArg))
    (h : RunnerReachable r pushed executed) (type : ScrMsgType) (arg : ScrArg) :
    (r.csrMsgHead ≠ none →
      ∃ t tm, r.csrMsgTail = some t ∧ r.heap t = some tm ∧ tm.next = none) ∧
    ∃ q r', QueueInv r q ∧ csrPushMsg r type arg = .ok r' ∧
      QueueInv r' (q ++ [(type, arg)]) ∧ r'.brk = r.brk + 1 := by
  obtain ⟨q, hq, _⟩ := runnerReachable_queueInv h
  obtain ⟨r', hpush, hinv, _, _, _, hbrk⟩ := csrPushMsg_queueInv hq type arg
  exact ⟨queueInv_tail hq, q, r', hq, hpush, hinv, hbrk⟩

/-- Witness of C20: a push on the runner that holds two messages after the worker has
handled a first one. -/
theorem queue_never_corrupt_witness :
    RunnerReachable
      (workerPass (enqueue initialRunner
        [(.SCR_MSG_ADD, .word (str "the")), (.SCR_MSG_ADD, .word (str "fox")),
         (.SCR_MSG_SPELL_CHECK, .spellCheck ⟨str "fox", 7⟩)]))
      ([] ++ [(.SCR_MSG_ADD, .word (str "the")), (.SCR_MSG_ADD, .word (str "fox")),
        (.SCR_MSG_SPELL_CHECK, .spellCheck ⟨str "fox", 7⟩)])
      ([] ++ [(.SCR_MSG_ADD, .word (str "the"))]) ∧
    ((workerPass (enqueue initialRunner
        [(.SCR_MSG_ADD, .word (str "the")), (.SCR_MSG_ADD, .word (str "fox")),
         (.SCR_MSG_SPELL_CHECK, .spellCheck ⟨str "fox", 7⟩)])).csrMsgHead ≠ none →
      ∃ t tm,
        (workerPass (enqueue initialRunner
          [(.SCR_MSG_ADD, .word (str "the")), (.SCR_MSG_ADD, .word (str "fox")),
           (.SCR_MSG_SPELL_CHECK, .spellCheck ⟨str "fox", 7⟩)])).csrMsgTail = some t ∧
        (workerPass (enqueue initialRunner
          [(.SCR_MSG_ADD, .word (str "the")), (.SCR_MSG_ADD, .word (str "fox")),
           (.SCR_MSG_SPELL_CHECK, .spellCheck ⟨str "fox", 7⟩)])).heap t = some tm ∧
        tm.next = none) ∧
    ∃ q r',
      QueueInv (workerPass (enqueue initialRunner
        [(.SCR_MSG_ADD, .word (str "the")), (.SCR_MSG_ADD, .word (str "fox")),
         (.SCR_MSG_SPELL_CHECK, .spellCheck ⟨str "fox", 7⟩)])) q ∧
      csrPushMsg (workerPass (enqueue initialRunner
        [(.SCR_MSG_ADD, .word (str "the")), (.SCR_MSG_ADD, .word (str "fox")),
         (.SCR_MSG_SPELL_CHECK, .spellCheck ⟨str "fox", 7⟩)])) .SCR_MSG_FINALIZE .null
        = .ok r' ∧
      QueueInv r' (q ++ [(.SCR_MSG_FINALIZE, .null)]) ∧
      r'.brk = (workerPass (enqueue initialRunner
        [(.SCR_MSG_ADD, .word (str "the")), (.SCR_MSG_ADD, .word (str "fox")),
         (.SCR_MSG_SPELL_CHECK, .spellCheck ⟨str "fox", 7⟩)])).brk + 1 :=
  have hreach := runnerReachable_workerPass
    (runnerReachable_enqueue _ _ _ _ _ runnerReachable_initialRunner queueInv_initialRunner)
    (by decide!) (queueInv_enqueue _ _ _ queueInv_initialRunner).1 (by decide!)
  ⟨hreach, queue_never_corrupt _ _ _ hreach .SCR_MSG_FINALIZE .null⟩

/-- C12 (shutdown drains pending work). When the queue of a running runner holds N AddWord
messages with words of allowed bytes and `scrFinalize` pushes the shutdown
message, the worker handles all N and then stops: the thread returns after N + 1
passes with `isRunning = 0` and an empty queue, `scdHasWord` returns 1 in the final
store for each of the N words and for every word found before, and `scrFinalize`
returns 0. -/
theorem shutdown_drains (r : SpellCheckerRunner) (s : SpellCheckerData)
    (ws : List (List Byte))
    (hq : QueueInv r (ws.map (fun w => (ScrMsgType.SCR_MSG_ADD, ScrArg.word w))))
    (hrun : r.isRunning ≠ 0) (hdata : r.data = some s) (hs : Reachable s)
    (hvalid : ∀ w ∈ ws, ∀ b ∈ w, Allowed b) :
    ∃ r1 r', csrPushMsg r .SCR_MSG_FINALIZE .null = .ok r1 ∧
      thread_runner (ws.length + 1) r1 = .ok r' ∧
      r'.isRunning = 0 ∧ QueueInv r' [] ∧ r'.data = addWords (some s) ws ∧
      (∀ w ∈ ws, scdHasWord r'.data (some w) = some 1) ∧
      (∀ x, scdHasWord (some s) (some x) = some 1 → scdHasWord r'.data (some x) = some 1) ∧
      scrFinalize (ws.length + 1) (some r) = .ok (0, none) := by
  obtain ⟨r1, hpush, hq1, hd1, _, hi1, _⟩ := csrPushMsg_queueInv hq .SCR_MSG_FINALIZE .null
  obtain ⟨r2, s', hloop, hq2, hi2, _, hd2, hwords⟩ :=
    thread_runner_loop_adds ws r1 s _ hq1 (by rw [hi1]; exact hrun) (hd1.trans hdata) hs hvalid
  obtain ⟨r', hbody, hstop, hd', _, hq'⟩ := thread_runner_finalize_step hq2
  have hrun2 : r2.isRunning ≠ 0 := by rw [hi2, hi1]; exact hrun
  have hthread : thread_runner (ws.length + 1) r1 = .ok r' := by
    rw [thread_runner, hloop 1, thread_runner_loop_step 0 hrun2 hbody]
    exact thread_runner_loop_stop _ _ _ hstop
  obtain ⟨_, hmono, hall⟩ := addWords_hasWord ws s s' hs hwords hvalid
  have hdata' : r'.data = some s' := hd'.trans hd2
  refine ⟨r1, r', hpush, hthread, hstop, hq', by rw [hdata', hwords], ?_, ?_, ?_⟩
  · intro w hw
    rw [hdata']
    exact hall w hw
  · intro x hx
    rw [hdata']
    exact hmono x hx
  · simp [scrFinalize, hrun, hpush, hthread]

/-- Witness of C12: the initial runner with AddWord("the") and AddWord("Fox") in its
queue. -/
theorem shutdown_drains_witness :
    QueueInv
      (enqueue initialRunner
        ([str "the", str "Fox"].map (fun w => (ScrMsgType.SCR_MSG_ADD, ScrArg.word w))))
      ([] ++ [str "the", str "Fox"].map (fun w => (ScrMsgType.SCR_MSG_ADD, ScrArg.word w))) ∧
    (enqueue initialRunner
      ([str "the", str "Fox"].map
        (fun w => (ScrMsgType.SCR_MSG_ADD, ScrArg.word w)))).isRunning ≠ 0 ∧
    (enqueue initialRunner
      ([str "the", str "Fox"].map
        (fun w => (ScrMsgType.SCR_MSG_ADD, ScrArg.word w)))).data = some (dictionary []) ∧
    Reachable (dictionary []) ∧
    (∀ w ∈ [str "the", str "Fox"], ∀ b ∈ w, Allowed b) ∧
    ∃ r1 r',
      csrPushMsg (enqueue initialRunner
        ([str "the", str "Fox"].map (fun w => (ScrMsgType.SCR_MSG_ADD, ScrArg.word w))))
        .SCR_MSG_FINALIZE .null = .ok r1 ∧
      thread_runner ([str "the", str "Fox"].length + 1) r1 = .ok r' ∧
      r'.isRunning = 0 ∧ QueueInv r' [] ∧
      r'.data = addWords (some (dictionary [])) [str "the", str "Fox"] ∧
      (∀ w ∈ [str "the", str "Fox"], scdHasWord r'.data (some w) = some 1) ∧
      (∀ x, scdHasWord (some (dictionary [])) (some x) = some 1 →
        scdHasWord r'.data (some x) = some 1) ∧
      scrFinalize ([str "the", str "Fox"].length + 1)
        (some (enqueue initialRunner
          ([str "the", str "Fox"].map
            (fun w => (ScrMsgType.SCR_MSG_ADD, ScrArg.word w))))) = .ok (0, none) :=
  ⟨(queueInv_enqueue _ _ _ queueInv_initialRunner).1, by decide!,
    (queueInv_enqueue _ _ _ queueInv_initialRunner).2.1, reachable_dictionary _, by decide!,
    shutdown_drains _ _ _ (queueInv_enqueue _ _ _ queueInv_initialRunner).1 (by decide!)
      (queueInv_enqueue _ _ _ queueInv_initialRunner).2.1 (reachable_dictionary _)
      (by decide!)⟩

theorem scdAddWordFind_calloc (k : Byte) (w : List Byte) :
    scdAddWordFind (node k callocChildren) w = scdAddWordCreate (node k callocChildren) w := by
  cases w with
  | nil => rfl
  | cons c rest => simp [scdAddWordFind, callocChildren, SpellCheckerData.chr]

theorem scdAddWordFind_cons (chr : Byte) (child : Fin 256 → SpellCheckerData) (c : Byte)
    (rest : List Byte) :
    scdAddWordFind (node chr child) (c :: rest) =
      match scdAddWordFind (openSlot (scdNormalizeChar c) (child (scdNormalizeChar c))) rest with
      | none => none
      | some sub => some (node chr (Function.update child (scdNormalizeChar c) sub)) := by
  by_cases hk : 0 = (child (scdNormalizeChar c)).chr
  · have hopen : openSlot (scdNormalizeChar c) (child (scdNormalizeChar c)) =
        node (scdNormalizeChar c) callocChildren := by
      simp [openSlot, hk.symm]
    rw [hopen, scdAddWordFind_calloc]
    simp [scdAddWordFind, hk.symm, scdAddWordCreate, scdInitNode]
  · have hopen : openSlot (scdNormalizeChar c) (child (scdNormalizeChar c)) =
        child (scdNormalizeChar c) := by
      simp [openSlot, hk]
    rw [hopen]
    simp [scdAddWordFind, hk]

theorem openSlot_chr (c : Byte) (hc : Allowed c) (slot : SpellCheckerData) :
    0 ≠ (openSlot (scdNormalizeChar c) slot).chr := by
  by_cases hk : 0 = slot.chr
  · have hopen : openSlot (scdNormalizeChar c) slot = node (scdNormalizeChar c) callocChildren := by
      simp [openSlot, hk.symm]
    rw [hopen]
    exact fun h => scdNormalizeChar_ne_zero c hc h.symm
  · simp [openSlot, hk]

theorem scdAddWordFind_comm (a : List Byte) :
    ∀ (b : List Byte) (nd sa sab sb sba : SpellCheckerData),
      (∀ x ∈ a, Allowed x) → (∀ x ∈ b, Allowed x) →
      scdAddWordFind nd a = some sa → scdAddWordFind sa b = some sab →
      scdAddWordFind nd b = some sb → scdAddWordFind sb a = some sba → sab = sba := by
  induction a with
  | nil =>
    intro b nd sa sab sb sba _ _ h1 h2 h3 h4
    simp [scdAddWordFind] at h1 h4
    subst h1 h4
    rw [h2] at h3
    exact Option.some.inj h3
  | cons c ra ih =>
    intro b nd sa sab sb sba ha hb h1 h2 h3 h4
    cases b with
    | nil =>
      simp [scdAddWordFind] at h2 h3
      subst h2 h3
      rw [h1] at h4
      exact Option.some.inj h4
    | cons d rb =>
      cases nd with
      | leaf c0 => simp [scdAddWordFind] at h1
      | node chr child =>
        have hc := ha c (List.mem_cons_self _ _)
        have hd := hb d (List.mem_cons_self _ _)
        have hra : ∀ x ∈ ra, Allowed x := fun x hx => ha x (List.mem_cons_of_mem _ hx)
        have hrb : ∀ x ∈ rb, Allowed x := fun x hx => hb x (List.mem_cons_of_mem _ hx)
        rw [scdAddWordFind_cons] at h1 h3
        cases hA : scdAddWordFind
            (openSlot (scdNormalizeChar c) (child (scdNormalizeChar c))) ra with
        | none => simp [hA] at h1
        | some A =>
          cases hB : scdAddWordFind
              (openSlot (scdNormalizeChar d) (child (scdNormalizeChar d))) rb with
          | none => simp [hB] at h3
          | some B =>
            simp only [hA, Option.some.injEq] at h1
            simp only [hB, Option.some.injEq] at h3
            subst h1 h3
            rw [scdAddWordFind_cons] at h2 h4
            have hAchr : 0 ≠ A.chr := by
              rw [scdAddWordFind_chr _ _ _ hA]; exact openSlot_chr c hc _
            have hBchr : 0 ≠ B.chr := by
              rw [scdAddWordFind_chr _ _ _ hB]; exact openSlot_chr d hd _
            by_cases hk : scdNormalizeChar c = scdNormalizeChar d
            · rw [← hk] at h2 hB
              rw [hk] at h4
              rw [← hk] at h4
              simp only [Function.update_same] at h2 h4
              have hoA : openSlot (scdNormalizeChar c) A = A := by simp [openSlot, hAchr]
              have hoB : openSlot (scdNormalizeChar c) B = B := by simp [openSlot, hBchr]
              rw [hoA] at h2
              rw [hoB] at h4
              cases hAB : scdAddWordFind A rb with
              | none => simp [hAB] at h2
              | some AB =>
                cases hBA : scdAddWordFind B ra with
                | none => simp [hBA] at h4
                | some BA =>
                  simp only [hAB, Option.some.injEq] at h2
                  simp only [hBA, Option.some.injEq] at h4
                  have := ih rb _ A AB B BA hra hrb hA hAB hB hBA
                  rw [← h2, ← h4, this]
                  simp [Function.update_idem]
            · have hk' : scdNormalizeChar d ≠ scdNormalizeChar c := fun h => hk h.symm
              simp only [Function.update_noteq hk', Function.update_noteq hk, hA, hB,
                Option.some.injEq] at h2 h4
              rw [← h2, ← h4]
              congr 1
              exact Function.update_comm hk A B child

/-! ## The words a store finds -/

set_option maxRecDepth 100000 in
theorem scdNormalizeChar_idem : ∀ c : Byte,
    scdNormalizeChar (scdNormalizeChar c) = scdNormalizeChar c := by
  decide

theorem scdHasWordLoop_map (nd : SpellCheckerData) (x : List Byte) :
    scdHasWordLoop nd (x.map scdNormalizeChar) = scdHasWordLoop nd x :=
  scdHasWordLoop_congr _ _ nd (by simp [scdNormalizeChar_idem])

theorem scdHasWordLoop_calloc (k : Byte) (xs : List Byte)
    (h : scdHasWordLoop (node k callocChildren) xs = some 1) : xs = [] := by
  cases xs with
  | nil => rfl
  | cons d ds => simp [scdHasWordLoop, callocChildren, SpellCheckerData.chr] at h

theorem scdAddWordFind_paths (w : List Byte) :
    ∀ (nd s : SpellCheckerData) (x : List Byte), scdAddWordFind nd w = some s →
      scdHasWordLoop s x = some 1 →
      scdHasWordLoop nd x = some 1 ∨
        (x ≠ [] ∧ x.map scdNormalizeChar <+: w.map scdNormalizeChar) := by
  induction w with
  | nil =>
    intro nd s x hs h
    simp [scdAddWordFind] at hs
    subst hs
    exact Or.inl h
  | cons c rest ih =>
    intro nd s x hs h
    cases nd with
    | leaf c0 => simp [scdAddWordFind] at hs
    | node chr child =>
      cases x with
      | nil => exact Or.inl rfl
      | cons d xs =>
        rw [scdAddWordFind_cons] at hs
        cases hsub : scdAddWordFind
            (openSlot (scdNormalizeChar c) (child (scdNormalizeChar c))) rest with
        | none => simp [hsub] at hs
        | some sub =>
          simp only [hsub, Option.some.injEq] at hs
          subst hs
          by_cases hdk : scdNormalizeChar d = scdNormalizeChar c
          · have hxs : scdHasWordLoop sub xs = some 1 := by
              simp only [scdHasWordLoop] at h
              rw [hdk, Function.update_same] at h
              by_cases h0 : 0 = sub.chr
              · simp [h0] at h
              · simpa [h0] using h
            rcases ih _ _ xs hsub hxs with hold | ⟨_, hpre⟩
            · by_cases hk : 0 = (child (scdNormalizeChar c)).chr
              · have hopen : openSlot (scdNormalizeChar c) (child (scdNormalizeChar c)) =
                    node (scdNormalizeChar c) callocChildren := by
                  simp [openSlot, hk.symm]
                rw [hopen] at hold
                have hnil := scdHasWordLoop_calloc _ _ hold
                subst hnil
                refine Or.inr ⟨by simp, ?_⟩
                simp only [List.map_cons, List.map_nil, hdk]
                exact (List.prefix_cons_inj _).mpr List.nil_prefix
              · have hopen : openSlot (scdNormalizeChar c) (child (scdNormalizeChar c)) =
                    child (scdNormalizeChar c) := by
                  simp [openSlot, hk]
                rw [hopen] at hold
                exact Or.inl (by simp [scdHasWordLoop, hdk, hk, hold])
            · refine Or.inr ⟨by simp, ?_⟩
              simp only [List.map_cons, hdk]
              exact (List.prefix_cons_inj _).mpr hpre
          · refine Or.inl ?_
            simpa [scdHasWordLoop, Function.update_noteq hdk] using h

theorem scdAddWord_paths {s s' : SpellCheckerData} {w : List Byte} {ret : Int}
    (hs : Reachable s) (x : List Byte)
    (hadd : scdAddWord (some s) (some w) = some (ret, some s'))
    (h : scdHasWord (some s') (some x) = some 1) :
    scdHasWord (some s) (some x) = some 1 ∨
      ((∀ b ∈ w, Allowed b) ∧ x.map scdNormalizeChar <+: w.map scdNormalizeChar) := by
  obtain ⟨child, rfl, _⟩ := reachable_node hs
  by_cases hv : scdIsValid w = 0
  · simp [scdAddWord, hv] at hadd
    rw [← hadd.2] at h
    exact Or.inl h
  · have hw : ∀ b ∈ w, Allowed b := by
      intro b hb
      by_contra hnot
      exact hv ((scdIsValid_eq_zero_iff w).mpr ⟨b, hb, hnot⟩)
    simp only [scdAddWord, hv, if_false] at hadd
    cases hf : scdAddWordFind (node 0 child) w with
    | none => simp [hf] at hadd
    | some s1 =>
      simp [hf] at hadd
      obtain ⟨child1, hs1⟩ := scdAddWordFind_node w 0 child s1 hf
      rw [← hadd.2, hs1] at h
      have hloop : scdHasWordLoop s1 x = some 1 := by
        rw [hs1]; simpa [scdHasWord] using h
      rcases scdAddWordFind_paths w _ _ x hf hloop with hold | ⟨_, hpre⟩
      · exact Or.inl (by simpa [scdHasWord] using hold)
      · exact Or.inr ⟨hw, hpre⟩

theorem addWords_paths (ws : List (List Byte)) :
    ∀ (s s' : SpellCheckerData) (x : List Byte), Reachable s →
      addWords (some s) ws = some s' → scdHasWord (some s') (some x) = some 1 →
      scdHasWord (some s) (some x) = some 1 ∨
        ∃ v ∈ ws, (∀ b ∈ v, Allowed b) ∧
          x.map scdNormalizeChar <+: v.map scdNormalizeChar := by
  induction ws with
  | nil =>
    intro s s' x _ h hx
    simp [addWords] at h
    subst h
    exact Or.inl hx
  | cons w ws ih =>
    intro s s' x hs h hx
    obtain ⟨child, rfl, hsound⟩ := reachable_node hs
    obtain ⟨ret, child1, hadd, _⟩ := scdAddWord_node_some 0 child hsound (some w)
    simp only [addWords, hadd] at h
    rcases ih _ s' x (Reachable.add hs hadd) h hx with h1 | ⟨v, hv, hvalid, hpre⟩
    · rcases scdAddWord_paths hs x hadd h1 with h0 | ⟨hvalid, hpre⟩
      · exact Or.inl h0
      · exact Or.inr ⟨w, List.mem_cons_self _ _, hvalid, hpre⟩
    · exact Or.inr ⟨v, List.mem_cons_of_mem _ hv, hvalid, hpre⟩

theorem addWords_mem_hasWord (ws : List (List Byte)) :
    ∀ (s s' : SpellCheckerData), Reachable s → addWords (some s) ws = some s' →
      (∀ x, scdHasWord (some s) (some x) = some 1 → scdHasWord (some s') (some x) = some 1) ∧
      ∀ v ∈ ws, (∀ b ∈ v, Allowed b) → scdHasWord (some s') (some v) = some 1 := by
  induction ws with
  | nil =>
    intro s s' _ h
    simp [addWords] at h
    subst h
    exact ⟨fun _ hx => hx, by simp⟩
  | cons w ws ih =>
    intro s s' hs h
    obtain ⟨child, rfl, hsound⟩ := reachable_node hs
    obtain ⟨ret, child1, hadd, _⟩ := scdAddWord_node_some 0 child hsound (some w)
    simp only [addWords, hadd] at h
    obtain ⟨hmono, hall⟩ := ih _ s' (Reachable.add hs hadd) h
    refine ⟨fun x hx => hmono x (scdAddWord_mono x hadd hx), ?_⟩
    intro v hv hvalid
    rcases List.mem_cons.mp hv with rfl | hv'
    · obtain ⟨s1, hadd1, _, hhas, child2, rfl⟩ := scdAddWord_valid hs hvalid
      rw [hadd] at hadd1
      simp only [Option.some.injEq, Prod.mk.injEq] at hadd1
      apply hmono
      rw [hadd1.2]
      simpa [scdHasWord] using hhas
    · exact hall v hv' hvalid

/-- C21 (exact membership characterisation). The store built from `scdInit` by calling
`scdAddWord` with each word of `ws` in turn exists, and in it `scdHasWord` returns 1
for a word `x` exactly when `x` is empty or the normalisation of `x` is an initial
segment of the normalisation of some word of `ws` whose bytes are all allowed;
otherwise it returns 0. On the fresh store only the empty word is found. -/
theorem membership_characterisation (ws : List (List Byte)) :
    (∃ s, addWords scdInit ws = some s ∧
      ∀ x : List Byte,
        (scdHasWord (some s) (some x) = some 1 ↔
          x = [] ∨ ∃ v ∈ ws, (∀ b ∈ v, Allowed b) ∧
            x.map scdNormalizeChar <+: v.map scdNormalizeChar) ∧
        (scdHasWord (some s) (some x) = some 1 ∨ scdHasWord (some s) (some x) = some 0)) ∧
    ∀ x : List Byte, scdHasWord scdInit (some x) = some 1 ↔ x = [] := by
  have hfresh : ∀ x : List Byte, scdHasWord scdInit (some x) = some 1 ↔ x = [] := by
    intro x
    constructor
    · intro h
      by_contra hne
      rw [scdHasWord_empty_store x hne] at h
      simp at h
    · intro h
      subst h
      rfl
  refine ⟨?_, hfresh⟩
  have hinit : Reachable (node 0 callocChildren) := Reachable.init scdInit_eq
  obtain ⟨s, hs, hreach⟩ := addWords_reachable ws _ hinit
  obtain ⟨child, rfl, hsound⟩ := reachable_node hreach
  refine ⟨node 0 child, by rw [scdInit_eq]; exact hs, ?_⟩
  intro x
  refine ⟨⟨?_, ?_⟩, ?_⟩
  · intro h
    rcases addWords_paths ws _ _ x hinit hs h with h0 | hex
    · exact Or.inl ((hfresh x).mp (by rw [scdInit_eq]; exact h0))
    · exact Or.inr hex
  · rintro (rfl | ⟨v, hv, hvalid, q, hq⟩)
    · rfl
    · have hfound := (addWords_mem_hasWord ws _ _ hinit hs).2 v hv hvalid
      have hloop : scdHasWordLoop (node 0 child) (v.map scdNormalizeChar) = some 1 := by
        rw [scdHasWordLoop_map]
        simpa [scdHasWord] using hfound
      rw [← hq] at hloop
      have hx := scdHasWordLoop_append _ q _ hloop
      rw [scdHasWordLoop_map] at hx
      simpa [scdHasWord] using hx
  · rcases scdHasWordLoop_total x 0 child hsound with h0 | h1
    · exact Or.inr (by simpa [scdHasWord] using h0)
    · exact Or.inl (by simpa [scdHasWord] using h1)

/-- C22 (adding never removes). On a reachable store, a word for which `scdHasWord`
returns 1 is still found after `scdAddWord` has been called with any word, allowed
or not; a spell check on the store after the call does not report it. -/
theorem adding_never_removes (s : SpellCheckerData) (hs : Reachable s) (w x : List Byte)
    (h : scdHasWord (some s) (some x) = some 1) :
    ∃ ret s', scdAddWord (some s) (some w) = some (ret, some s') ∧
      scdHasWord (some s') (some x) = some 1 ∧
      ∀ (text : List Byte) (callback : SpellCheckerCallback),
        ∃ reported, scrDoSpellCheck (some s') ⟨text, callback⟩ = .ok (0, reported) ∧
          x ∉ reported := by
  obtain ⟨child, rfl, hsound⟩ := reachable_node hs
  obtain ⟨ret, child', hadd, hsound'⟩ := scdAddWord_node_some 0 child hsound (some w)
  have hfound := scdAddWord_mono x hadd h
  refine ⟨ret, node 0 child', hadd, hfound, ?_⟩
  intro text callback
  refine ⟨_, scrDoSpellCheck_eq _
    (scdHasWord_total _ (fun s h => by cases h; exact hsound')) _, ?_⟩
  intro hmem
  have := (List.mem_filter.mp hmem).2
  rw [hfound] at this
  simp at this

/-- Witness of C22: "the" is found in the dictionary holding "then" and stays found
after "fox" and after the rejected "fo!" have been added. -/
theorem adding_never_removes_witness :
    Reachable (dictionary [str "then"]) ∧
    scdHasWord (some (dictionary [str "then"])) (some (str "the")) = some 1 ∧
    (∃ ret s', scdAddWord (some (dictionary [str "then"])) (some (str "fox")) =
        some (ret, some s') ∧
      scdHasWord (some s') (some (str "the")) = some 1 ∧
      ∀ (text : List Byte) (callback : SpellCheckerCallback),
        ∃ reported, scrDoSpellCheck (some s') ⟨text, callback⟩ = .ok (0, reported) ∧
          str "the" ∉ reported) ∧
    scdHasWord (addWords (some (dictionary [str "then"])) [str "fo!"]) (some (str "the")) =
      some 1 :=
  ⟨reachable_dictionary _, by decide!,
    adding_never_removes _ (reachable_dictionary _) (str "fox") (str "the") (by decide!),
    by decide!⟩

/-- C23 (insertion order is irrelevant). On a reachable store, `scdAddWord` with `a` and
then with `b` returns the same two values and ends in the same store as
`scdAddWord` with `b` and then with `a`. -/
theorem insertion_order_irrelevant (s : SpellCheckerData) (hs : Reachable s)
    (a b : List Byte) :
    ∃ (ra rb : Int) (sa sb s' : SpellCheckerData),
      scdAddWord (some s) (some a) = some (ra, some sa) ∧
      scdAddWord (some sa) (some b) = some (rb, some s') ∧
      scdAddWord (some s) (some b) = some (rb, some sb) ∧
      scdAddWord (some sb) (some a) = some (ra, some s') := by
  obtain ⟨child, rfl, hsound⟩ := reachable_node hs
  by_cases hva : scdIsValid a = 0
  · obtain ⟨rb, cb, hb, _⟩ := scdAddWord_node_some 0 child hsound (some b)
    exact ⟨-1, rb, node 0 child, node 0 cb, node 0 cb, by simp [scdAddWord, hva], hb, hb,
      by simp [scdAddWord, hva]⟩
  · by_cases hvb : scdIsValid b = 0
    · obtain ⟨ra, ca, ha, _⟩ := scdAddWord_node_some 0 child hsound (some a)
      exact ⟨ra, -1, node 0 ca, node 0 child, node 0 ca, ha, by simp [scdAddWord, hvb],
        by simp [scdAddWord, hvb], ha⟩
    · have hwa : ∀ x ∈ a, Allowed x := by
        intro x hx
        by_contra hnot
        exact hva ((scdIsValid_eq_zero_iff a).mpr ⟨x, hx, hnot⟩)
      have hwb : ∀ x ∈ b, Allowed x := by
        intro x hx
        by_contra hnot
        exact hvb ((scdIsValid_eq_zero_iff b).mpr ⟨x, hx, hnot⟩)
      obtain ⟨ca, hfa⟩ := scdAddWordFind_total a 0 child hsound
      obtain ⟨cb, hfb⟩ := scdAddWordFind_total b 0 child hsound
      obtain ⟨cab, hfab⟩ := scdAddWordFind_total b 0 ca (scdAddWordFind_sound a _ _ hsound hfa)
      obtain ⟨cba, hfba⟩ := scdAddWordFind_total a 0 cb (scdAddWordFind_sound b _ _ hsound hfb)
      have hcomm := scdAddWordFind_comm a b _ _ _ _ _ hwa hwb hfa hfab hfb hfba
      refine ⟨0, 0, node 0 ca, node 0 cb, node 0 cab, by simp [scdAddWord, hva, hfa],
        by simp [scdAddWord, hvb, hfab], by simp [scdAddWord, hvb, hfb], ?_⟩
      rw [hcomm]
      simp [scdAddWord, hva, hfba]

/-- Witness of C23: "then" and "Fox" added in both orders to the dictionary holding
"the". -/
theorem insertion_order_irrelevant_witness :
    Reachable (dictionary [str "the"]) ∧
    ∃ (ra rb : Int) (sa sb s' : SpellCheckerData),
      scdAddWord (some (dictionary [str "the"])) (some (str "then")) = some (ra, some sa) ∧
      scdAddWord (some sa) (some (str "Fox")) = some (rb, some s') ∧
      scdAddWord (some (dictionary [str "the"])) (some (str "Fox")) = some (rb, some sb) ∧
      scdAddWord (some sb) (some (str "then")) = some (ra, some s') :=
  ⟨reachable_dictionary _,
    insertion_order_irrelevant _ (reachable_dictionary _) (str "then") (str "Fox")⟩

end SpellChecker
